import Mathlib

/-!
Verification of the HashChain family of exact string search algorithms.

The C sources are embedded shallowly: byte buffers become `List Nat`,
C `int` loop variables become `Int`, C `unsigned int` hash values become
`Nat` reduced modulo `2^32` at every store, and every loop becomes a
fuel-indexed recursive function.  Reads of a buffer use either a
defaulting read `rd` (for the variants whose claims never concern memory
safety; under the preconditions proved below all such reads are
in-range) or a checked read `rdQ` returning `Option` (for the variants
whose claims are about in-range access).
-/

/-- Ground-truth occurrence predicate, from the specification: `x` occurs
in `y` at position `i` when `i + m ≤ n` and `y[i..i+m) = x`. -/
def occAt (x y : List Nat) (i : Nat) : Prop :=
  i + x.length ≤ y.length ∧ (y.drop i).take x.length = x

instance occAt.dec (x y : List Nat) (i : Nat) : Decidable (occAt x y i) := by
  unfold occAt; infer_instance

/-- List of all occurrence positions of `x` in `y`. -/
def occList (x y : List Nat) : List Nat :=
  (List.range (y.length + 1)).filter (fun i => decide (occAt x y i))

/-- Specification-side count of occurrences of `x` in `y`:
the number of positions `i ∈ [0, n-m]` with `y[i..i+m) = x`. -/
def occCount (x y : List Nat) : Nat :=
  (occList x y).length

/-- Defaulting byte read: `l[i]`, with out-of-range reads returning 0.
Used for the variants where all executions reached under the stated
preconditions read in range. -/
def rd (l : List Nat) (i : Int) : Nat :=
  if i < 0 then 0 else l.getD i.toNat 0

/-- Checked byte read: `l[i]` as an `Option`, `none` when out of range. -/
def rdQ (l : List Nat) (i : Int) : Option Nat :=
  if 0 ≤ i ∧ i < l.length then some (l.getD i.toNat 0) else none

/-- Modulus of C `unsigned int` arithmetic. -/
def M32 : Nat := 4294967296

/-- Pointwise update of a hash table represented as a function. -/
def updB (B : Nat → Nat) (i v : Nat) : Nat → Nat :=
  fun j => if j = i then v else B j

/-!
## hc3.c — the rolling-hash HashChain variant (Q = 3, ASIZE = 2048,
S1 = 3, S2 = 4, S3 = 1, CHAIN_LENGTH = 12)

`CHAIN_LENGTH` is the C macro `((CEIL_DIV(log2(ASIZE), S2) + 1) * Q)`;
its operands are compile-time constants, and the value is
`(⌈11/4⌉ + 1) * 3 = 12`.
-/

namespace HC3

def Q : Int := 3
def ASIZE : Nat := 2048
def S1 : Nat := 3
def S2 : Nat := 4
def S3 : Nat := 1
def TABLE_MASK : Nat := ASIZE - 1
def END_FIRST_QGRAM : Int := Q - 1
def END_SECOND_QGRAM : Int := Q + Q - 1
def CHAIN_LENGTH : Int := 12

/-- The hash macro `HASH(x, p, s) = (((x[p] << s) + x[p-1]) << s) + x[p-2]`. -/
def HASH (l : List Nat) (p : Int) (s : Nat) : Nat :=
  (((rd l p <<< s) + rd l (p - 1)) <<< s) + rd l (p - 2)

def ANCHOR_HASH (l : List Nat) (p : Int) : Nat := HASH l p S1

def CHAIN_HASH (l : List Nat) (p : Int) : Nat := HASH l p S3

/-- `LINK_HASH(H) = 1 << (H & 0x1F)`. -/
def LINK_HASH (H : Nat) : Nat := 1 <<< (H &&& 31)

/-- Inner chain loop of preprocessing step 1: walk left from
`chain_pos` in steps of `Q` while `chain_pos ≥ stop_chain`, each step
rolling the hash and setting the fingerprint bit of the new hash in the
table entry of the previous hash. -/
def chainLoop (x : List Nat) (stop_chain : Int) (chain_pos : Int) (H : Nat)
    (B : Nat → Nat) (fuel : Nat) : (Nat → Nat) × Nat :=
  match fuel with
  | 0 => (B, H)
  | fuel + 1 =>
    if stop_chain ≤ chain_pos then
      let H_last := H
      let H2 := ((H <<< S2) + CHAIN_HASH x chain_pos) % M32
      let B2 := updB B (H_last &&& TABLE_MASK) (B (H_last &&& TABLE_MASK) ||| LINK_HASH H2)
      chainLoop x stop_chain (chain_pos - Q) H2 B2 fuel
    else (B, H)

/-- Preprocessing step 1: for every anchor position from
`END_SECOND_QGRAM` to `m - 1` run the chain loop, the chain bounded
below by `max(END_FIRST_QGRAM, start_chain - CHAIN_LENGTH)`. -/
def anchorLoop (x : List Nat) (m : Int) (anchor_pos : Int) (B : Nat → Nat)
    (fuel : Nat) : Nat → Nat :=
  match fuel with
  | 0 => B
  | fuel + 1 =>
    if anchor_pos < m then
      let H := ANCHOR_HASH x anchor_pos % M32
      let start_chain := anchor_pos - Q
      let stop_chain := max END_FIRST_QGRAM (start_chain - CHAIN_LENGTH)
      let B2 := (chainLoop x stop_chain start_chain H B 6).1
      anchorLoop x m (anchor_pos + 1) B2 fuel
    else B

/-- Preprocessing step 2: for the first q-grams (no predecessor inside
`x`), if the table entry is still empty set it to the fingerprint of the
bitwise complement of the hash. -/
def fillLoop (x : List Nat) (stop : Int) (anchor : Int) (B : Nat → Nat)
    (fuel : Nat) : Nat → Nat :=
  match fuel with
  | 0 => B
  | fuel + 1 =>
    if anchor < stop then
      let H := ANCHOR_HASH x anchor % M32
      let B2 :=
        if B (H &&& TABLE_MASK) = 0 then
          updB B (H &&& TABLE_MASK) (LINK_HASH (H ^^^ (M32 - 1)))
        else B
      fillLoop x stop (anchor + 1) B2 fuel
    else B

/-- Preprocessing step 3: the cumulative rolling hash of the entire
pattern, from `m - 1` down through `END_FIRST_QGRAM`. -/
def hmLoop (x : List Nat) (chain_pos : Int) (H : Nat) (fuel : Nat) : Nat :=
  match fuel with
  | 0 => H
  | fuel + 1 =>
    if END_FIRST_QGRAM ≤ chain_pos then
      hmLoop x (chain_pos - Q) (((H <<< S2) + CHAIN_HASH x chain_pos) % M32) fuel
    else H

/-- `preprocessing(x, m, B)` of hc3.c: builds the table and returns it
together with the full-pattern hash `Hm`. -/
def preprocessing (x : List Nat) : (Nat → Nat) × Nat :=
  let m : Int := x.length
  let B0 : Nat → Nat := fun _ => 0
  let B1 := anchorLoop x m END_SECOND_QGRAM B0 (x.length + 1)
  let stop := min m END_SECOND_QGRAM
  let B2 := fillLoop x stop END_FIRST_QGRAM B1 6
  let final_pos := m - 1
  let Hm := hmLoop x (final_pos - Q) (ANCHOR_HASH x final_pos % M32) (x.length + 1)
  (B2, Hm)

/-- Result of the backward chain walk: the chain q-gram failed to match
at a (decremented) position, or the walk read back to the start and
carries the accumulated hash, or fuel ran out. -/
inductive WalkRes where
  | fail (pos : Int)
  | complete (H : Nat)
  | out
deriving DecidableEq

/-- The backward chain walk of the scanner (the inner `while` loop of
`search`): while `pos ≥ end_second_qgram_pos`, step back by `Q`, roll
the hash, fail if the fingerprint bit of the new hash is absent from the
previous table word, otherwise fetch the next table word. -/
def walk (y : List Nat) (B : Nat → Nat) (V H : Nat) (pos end2 : Int)
    (fuel : Nat) : WalkRes :=
  match fuel with
  | 0 => .out
  | fuel + 1 =>
    if end2 ≤ pos then
      let pos2 := pos - Q
      let H2 := ((H <<< S2) + CHAIN_HASH y pos2) % M32
      if V &&& LINK_HASH H2 = 0 then .fail pos2
      else walk y B (B (H2 &&& TABLE_MASK)) H2 pos2 end2 fuel
    else .complete H

/-- `memcmp(y + start, x, m) == 0` as a boolean. -/
def memcmpB (y : List Nat) (start : Int) (x : List Nat) : Bool :=
  (List.range x.length).all (fun k => rd y (start + (k : Int)) == x.getD k 0)

/-- Main scanning loop of `search` in hc3.c.  One fuel unit per
iteration of the C `while (pos < n)` loop. -/
def mainLoop (x y : List Nat) (B : Nat → Nat) (Hm : Nat) (MQ1 : Int)
    (pos : Int) (count : Nat) (fuel : Nat) : Option Nat :=
  match fuel with
  | 0 => none
  | fuel + 1 =>
    let n : Int := y.length
    let m : Int := x.length
    if pos < n then
      let H := ANCHOR_HASH y pos % M32
      let V := B (H &&& TABLE_MASK)
      if V ≠ 0 then
        let end2 := pos - m + (Q + Q)
        match walk y B V H pos end2 (pos.toNat + 1) with
        | .fail p2 => mainLoop x y B Hm MQ1 (p2 + MQ1) count fuel
        | .complete H2 =>
          let pos2 := end2 - Q
          let count2 :=
            if H2 = Hm && memcmpB y (pos2 - END_FIRST_QGRAM) x then count + 1
            else count
          mainLoop x y B Hm MQ1 (pos2 + MQ1) count2 fuel
        | .out => none
      else mainLoop x y B Hm MQ1 (pos + MQ1) count fuel
    else some count

/-- `search(x, m, y, n)` of hc3.c: `-1` when `m < Q`, otherwise the
number of occurrences found by the scanner. -/
def search (x y : List Nat) : Option Int :=
  let m : Int := x.length
  if m < Q then some (-1)
  else
    let MQ1 := m - Q + 1
    let p := preprocessing x
    (mainLoop x y p.1 p.2 MQ1 (m - 1) 0 (y.length + 1)).map Int.ofNat

end HC3

/-- Result of a checked computation: an out-of-range buffer access, fuel
exhaustion, or a value. -/
inductive CRes (α : Type) where
  | oob
  | out
  | ok (a : α)
deriving DecidableEq

/-!
## hc4-qverify.c — the plain Q-verify HashChain variant (Q = 4,
ALPHA = 12, S = 3)

All buffer reads are checked (`rdQ`), so an access outside `[0, len)`
surfaces as `CRes.oob`.
-/

namespace HC4QV

def Q : Int := 4
def ALPHA : Nat := 12
def S : Nat := 3
def ASIZE : Nat := 4096
def TABLE_MASK : Nat := ASIZE - 1
def END_FIRST_QGRAM : Int := Q - 1
def END_SECOND_QGRAM : Int := Q + Q - 1

/-- The checked hash macro
`HASH(x, p, s) = (((((x[p] << s) + x[p-1]) << s) + x[p-2]) << s) + x[p-3]`. -/
def HASH? (l : List Nat) (p : Int) (s : Nat) : Option Nat := do
  let a ← rdQ l p
  let b ← rdQ l (p - 1)
  let c ← rdQ l (p - 2)
  let d ← rdQ l (p - 3)
  return (((((a <<< s) + b) <<< s) + c) <<< s) + d

def CHAIN_HASH? (l : List Nat) (p : Int) : Option Nat := HASH? l p S

/-- The total twin of the hash macro, used to state table properties. -/
def CHAIN_HASH (l : List Nat) (p : Int) : Nat :=
  (((((rd l p <<< S) + rd l (p - 1)) <<< S) + rd l (p - 2)) <<< S) + rd l (p - 3)

def LINK_HASH (H : Nat) : Nat := 1 <<< (H &&& 31)

/-- Inner chain loop of preprocessing step 1. -/
def chainLoop (x : List Nat) (chain_pos : Int) (H : Nat) (B : Nat → Nat)
    (fuel : Nat) : CRes ((Nat → Nat) × Nat) :=
  match fuel with
  | 0 => .out
  | fuel + 1 =>
    if END_FIRST_QGRAM ≤ chain_pos then
      match CHAIN_HASH? x chain_pos with
      | none => .oob
      | some h =>
        let H_last := H
        let H2 := h % M32
        let B2 := updB B (H_last &&& TABLE_MASK) (B (H_last &&& TABLE_MASK) ||| LINK_HASH H2)
        chainLoop x (chain_pos - Q) H2 B2 fuel
    else .ok (B, H)

/-- Outer loop of preprocessing step 1: chains `chain_no = Q` down to 1,
each seeded with the hash at `m - chain_no`. -/
def chainNoLoop (x : List Nat) (chain_no : Int) (H : Nat) (B : Nat → Nat)
    (fuel : Nat) : CRes ((Nat → Nat) × Nat) :=
  match fuel with
  | 0 => .out
  | fuel + 1 =>
    if 1 ≤ chain_no then
      match CHAIN_HASH? x ((x.length : Int) - chain_no) with
      | none => .oob
      | some h =>
        match chainLoop x ((x.length : Int) - chain_no - Q) (h % M32) B (x.length + 1) with
        | .oob => .oob
        | .out => .out
        | .ok (B2, H2) => chainNoLoop x (chain_no - 1) H2 B2 fuel
    else .ok (B, H)

/-- Preprocessing step 2: fill for the first q-grams. -/
def fillLoop (x : List Nat) (stop : Int) (chain_pos : Int) (B : Nat → Nat)
    (fuel : Nat) : CRes (Nat → Nat) :=
  match fuel with
  | 0 => .out
  | fuel + 1 =>
    if chain_pos < stop then
      match CHAIN_HASH? x chain_pos with
      | none => .oob
      | some f =>
        let F := f % M32
        let B2 :=
          if B (F &&& TABLE_MASK) = 0 then
            updB B (F &&& TABLE_MASK) (LINK_HASH (F ^^^ (M32 - 1)))
          else B
        fillLoop x stop (chain_pos + 1) B2 fuel
    else .ok B

/-- `preprocessing(x, m, B)` of hc4-qverify.c (also the preprocessing of
shc2-1.c, shc6.c and fhc1.c up to the values of `Q`, `S` and `ASIZE`):
zero the table, build the `Q` chains, fill the leading q-grams. -/
def preprocessing (x : List Nat) : CRes ((Nat → Nat) × Nat) :=
  let B0 : Nat → Nat := fun _ => 0
  match chainNoLoop x Q 0 B0 (Q.toNat + 1) with
  | .oob => .oob
  | .out => .out
  | .ok (B1, H) =>
    let stop := min (x.length : Int) END_SECOND_QGRAM
    match fillLoop x stop END_FIRST_QGRAM B1 8 with
    | .oob => .oob
    | .out => .out
    | .ok B2 => .ok (B2, H)

/-- Result of the checked backward chain walk. -/
inductive WalkRes where
  | fail (pos : Int)
  | complete (H : Nat)
  | oob
  | out
deriving DecidableEq

/-- The checked backward chain walk of the scanner. -/
def walk (y : List Nat) (B : Nat → Nat) (V H : Nat) (pos end2 : Int)
    (fuel : Nat) : WalkRes :=
  match fuel with
  | 0 => .out
  | fuel + 1 =>
    if end2 ≤ pos then
      let pos2 := pos - Q
      match CHAIN_HASH? y pos2 with
      | none => .oob
      | some h =>
        let H2 := h % M32
        if V &&& LINK_HASH H2 = 0 then .fail pos2
        else walk y B (B (H2 &&& TABLE_MASK)) H2 pos2 end2 fuel
    else .complete H

/-- Checked `memcmp(y + start, x, m) == 0`: `none` when a text read is
out of range. -/
def memcmpQ (y : List Nat) (start : Int) (x : List Nat) : Option Bool :=
  (List.range x.length).foldl
    (fun acc (k : Nat) =>
      match acc with
      | none => none
      | some false => some false
      | some true =>
        match rdQ y (start + (k : Int)) with
        | none => none
        | some b => some (b == x.getD k 0))
    (some true)

/-- The Q-verify step: verify the `Q` alignments
`pattern_start ∈ [end2 - Q - (Q-1), end2 - Q]`, each bounds-checked
against `n - m` before the `memcmp`. -/
def qverifyLoop (x y : List Nat) (pattern_start stop : Int) (count : Nat)
    (fuel : Nat) : CRes Nat :=
  match fuel with
  | 0 => .out
  | fuel + 1 =>
    if pattern_start ≤ stop then
      if pattern_start ≤ (y.length : Int) - (x.length : Int) then
        match memcmpQ y pattern_start x with
        | none => .oob
        | some b =>
          qverifyLoop x y (pattern_start + 1) stop (if b then count + 1 else count) fuel
      else qverifyLoop x y (pattern_start + 1) stop count fuel
    else .ok count

/-- Main scanning loop of `search` in hc4-qverify.c. -/
def mainLoop (x y : List Nat) (B : Nat → Nat) (MQ1 : Int) (pos : Int)
    (count : Nat) (fuel : Nat) : CRes Nat :=
  match fuel with
  | 0 => .out
  | fuel + 1 =>
    let n : Int := y.length
    let m : Int := x.length
    if pos < n then
      match CHAIN_HASH? y pos with
      | none => .oob
      | some h =>
        let H := h % M32
        let V := B (H &&& TABLE_MASK)
        if V ≠ 0 then
          let end2 := pos - m + (Q + Q)
          match walk y B V H pos end2 (pos.toNat + 1) with
          | .oob => .oob
          | .out => .out
          | .fail p2 => mainLoop x y B MQ1 (p2 + MQ1) count fuel
          | .complete _ =>
            match qverifyLoop x y (end2 - Q - END_FIRST_QGRAM) (end2 - Q) count 5 with
            | .oob => .oob
            | .out => .out
            | .ok count2 => mainLoop x y B MQ1 (end2 - 1 + MQ1) count2 fuel
        else mainLoop x y B MQ1 (pos + MQ1) count fuel
    else .ok count

/-- `search(x, m, y, n)` of hc4-qverify.c: `-1` when `m < Q`, otherwise
the scanner count; an out-of-range access in the embedding surfaces as
`CRes.oob`. -/
def search (x y : List Nat) : CRes Int :=
  let m : Int := x.length
  if m < Q then .ok (-1)
  else
    let MQ1 := m - Q + 1
    match preprocessing x with
    | .oob => .oob
    | .out => .out
    | .ok (B, _) =>
      match mainLoop x y B MQ1 (m - 1) 0 (y.length + 1) with
      | .oob => .oob
      | .out => .out
      | .ok c => .ok (Int.ofNat c)

end HC4QV

/-!
## whc3.c — the Weaker HashChain variant (Q = 3, ALPHA = 11, S = 3)

Plain chain hashes, a guarded chain start
(`start = m < Q2 ? m - END_FIRST_QGRAM : Q`), and a rightmost-match
guard in the scanner.  Reads use the defaulting `rd`; under `m ≥ Q`
every read of a reached execution is in range.
-/

namespace WHC3

def Q : Int := 3
def ALPHA : Nat := 11
def S : Nat := 3
def ASIZE : Nat := 2048
def TABLE_MASK : Nat := ASIZE - 1
def END_FIRST_QGRAM : Int := Q - 1
def END_SECOND_QGRAM : Int := Q + Q - 1

/-- `HASH(x, p, s) = (((x[p] << s) + x[p-1]) << s) + x[p-2]` with `s = S`. -/
def CHAIN_HASH (l : List Nat) (p : Int) : Nat :=
  (((rd l p <<< S) + rd l (p - 1)) <<< S) + rd l (p - 2)

def LINK_HASH (H : Nat) : Nat := 1 <<< (H &&& 31)

/-- Inner chain loop of preprocessing step 1. -/
def chainLoop (x : List Nat) (chain_pos : Int) (H : Nat) (B : Nat → Nat)
    (fuel : Nat) : (Nat → Nat) × Nat :=
  match fuel with
  | 0 => (B, H)
  | fuel + 1 =>
    if END_FIRST_QGRAM ≤ chain_pos then
      let H_last := H
      let H2 := CHAIN_HASH x chain_pos % M32
      let B2 := updB B (H_last &&& TABLE_MASK) (B (H_last &&& TABLE_MASK) ||| LINK_HASH H2)
      chainLoop x (chain_pos - Q) H2 B2 fuel
    else (B, H)

/-- Outer loop of preprocessing step 1, from `chain_no = start` down to 1. -/
def chainNoLoop (x : List Nat) (chain_no : Int) (H : Nat) (B : Nat → Nat)
    (fuel : Nat) : (Nat → Nat) × Nat :=
  match fuel with
  | 0 => (B, H)
  | fuel + 1 =>
    if 1 ≤ chain_no then
      let h := CHAIN_HASH x ((x.length : Int) - chain_no) % M32
      let p := chainLoop x ((x.length : Int) - chain_no - Q) h B (x.length + 1)
      chainNoLoop x (chain_no - 1) p.2 p.1 fuel
    else (B, H)

/-- Preprocessing step 2: fill for the first q-grams. -/
def fillLoop (x : List Nat) (stop : Int) (chain_pos : Int) (B : Nat → Nat)
    (fuel : Nat) : Nat → Nat :=
  match fuel with
  | 0 => B
  | fuel + 1 =>
    if chain_pos < stop then
      let F := CHAIN_HASH x chain_pos % M32
      let B2 :=
        if B (F &&& TABLE_MASK) = 0 then
          updB B (F &&& TABLE_MASK) (LINK_HASH (F ^^^ (M32 - 1)))
        else B
      fillLoop x stop (chain_pos + 1) B2 fuel
    else B

/-- `preprocessing(x, m, B)` of whc3.c, with the guarded chain start
`start = m < Q2 ? m - END_FIRST_QGRAM : Q`. -/
def preprocessing (x : List Nat) : (Nat → Nat) × Nat :=
  let m : Int := x.length
  let B0 : Nat → Nat := fun _ => 0
  let start := if m < Q + Q then m - END_FIRST_QGRAM else Q
  let p := chainNoLoop x start 0 B0 (Q.toNat + 1)
  let stop := min m END_SECOND_QGRAM
  let B2 := fillLoop x stop END_FIRST_QGRAM p.1 6
  (B2, p.2)

/-- Backward chain walk of the whc3 scanner, bounded below by
`scan_back_pos`. -/
def walk (y : List Nat) (B : Nat → Nat) (V H : Nat) (pos scan_back : Int)
    (fuel : Nat) : HC3.WalkRes :=
  match fuel with
  | 0 => .out
  | fuel + 1 =>
    if scan_back ≤ pos then
      let pos2 := pos - Q
      let H2 := CHAIN_HASH y pos2 % M32
      if V &&& LINK_HASH H2 = 0 then .fail pos2
      else walk y B (B (H2 &&& TABLE_MASK)) H2 pos2 scan_back fuel
    else .complete H

/-- `memcmp(y + start, x, m) == 0` as a boolean (same as hc3). -/
def memcmpB (y : List Nat) (start : Int) (x : List Nat) : Bool :=
  (List.range x.length).all (fun (k : Nat) => rd y (start + (k : Int)) == x.getD k 0)

/-- Main scanning loop of `search` in whc3.c, with the rightmost-match
guard. -/
def mainLoop (x y : List Nat) (B : Nat → Nat) (MQ1 : Int)
    (pos rightmost : Int) (count : Nat) (fuel : Nat) : Option Nat :=
  match fuel with
  | 0 => none
  | fuel + 1 =>
    let n : Int := y.length
    let m : Int := x.length
    if pos < n then
      let H := CHAIN_HASH y pos % M32
      let V := B (H &&& TABLE_MASK)
      if V ≠ 0 then
        let end_first := pos - m + Q
        let scan_back := max end_first rightmost + Q
        let rightmost2 := pos
        match walk y B V H pos scan_back (pos.toNat + 1) with
        | .out => none
        | .fail p2 => mainLoop x y B MQ1 (p2 + MQ1) rightmost2 count fuel
        | .complete _ =>
          let pos2 := end_first
          let count2 := if memcmpB y (pos2 - END_FIRST_QGRAM) x then count + 1 else count
          mainLoop x y B MQ1 (pos2 + MQ1) rightmost2 count2 fuel
      else mainLoop x y B MQ1 (pos + MQ1) rightmost count fuel
    else some count

/-- `search(x, m, y, n)` of whc3.c. -/
def search (x y : List Nat) : Option Int :=
  let m : Int := x.length
  if m < Q then some (-1)
  else
    let MQ1 := m - Q + 1
    let p := preprocessing x
    (mainLoop x y p.1 MQ1 (m - 1) 0 0 (y.length + 1)).map Int.ofNat

end WHC3

/-!
## lhc4.c — the Linear HashChain variant (Q = 4, ALPHA = 12, S = 3)

Same plain chain preprocessing as hc4-qverify but with the guarded
chain start, plus a KMP failure table and a KMP-based verification in
the scanner.  All text reads in the scanner are checked (`rdQ`).
-/

namespace LHC4

def Q : Int := 4
def ALPHA : Nat := 12
def S : Nat := 3
def ASIZE : Nat := 4096
def TABLE_MASK : Nat := ASIZE - 1
def END_FIRST_QGRAM : Int := Q - 1
def END_SECOND_QGRAM : Int := Q + Q - 1

/-- Pointwise update of the KMP table represented as a function. -/
def updK (K : Int → Int) (i v : Int) : Int → Int :=
  fun j => if j = i then v else K j

/-- Inner border-descent loop of `pre_kmp`:
`while (t > -1 && x[j] != x[t]) t = KMP[t]`. -/
def kmpDescend (x : List Nat) (K : Int → Int) (j t : Int) (fuel : Nat) :
    Option Int :=
  match fuel with
  | 0 => none
  | fuel + 1 =>
    if -1 < t ∧ rd x j ≠ rd x t then kmpDescend x K j (K t) fuel
    else some t

/-- Outer loop of `pre_kmp`: one iteration per `j` from 0 to `m - 1`;
after `j++; t++` store `KMP[j] = KMP[t]` when `j < m ∧ x[j] == x[t]`,
else `KMP[j] = t`. -/
def kmpOuter (x : List Nat) (K : Int → Int) (j t : Int) (fuel : Nat) :
    Option (Int → Int) :=
  match fuel with
  | 0 => none
  | fuel + 1 =>
    if j < (x.length : Int) then
      match kmpDescend x K j t (t.toNat + 2) with
      | none => none
      | some t2 =>
        let j2 := j + 1
        let t3 := t2 + 1
        let K2 :=
          if j2 < (x.length : Int) ∧ rd x j2 = rd x t3 then updK K j2 (K t3)
          else updK K j2 t3
        kmpOuter x K2 j2 t3 fuel
    else some K

/-- `pre_kmp(x, m, KMP)` of lhc4.c: the KMP next table with an extra
entry at `m`.  The C array is uninitialised before `KMP[0] = -1`;
entries other than those written by the loop are modelled as 0 and are
never read by the algorithm. -/
def pre_kmp (x : List Nat) : Option (Int → Int) :=
  kmpOuter x (updK (fun _ => 0) 0 (-1)) 0 (-1) (x.length + 1)

/-- `preprocessing(x, m, B)` of lhc4.c: identical to hc4-qverify's
preprocessing (same `Q`, `ALPHA`, `S`, hash and table layout) except
that the outer chain loop starts at
`start = m < Q2 ? m - END_FIRST_QGRAM : Q`. -/
def preprocessing (x : List Nat) : CRes ((Nat → Nat) × Nat) :=
  let m : Int := x.length
  let B0 : Nat → Nat := fun _ => 0
  let start := if m < Q + Q then m - END_FIRST_QGRAM else Q
  match HC4QV.chainNoLoop x start 0 B0 (start.toNat + 1) with
  | .oob => .oob
  | .out => .out
  | .ok (B1, H) =>
    let stop := min m END_SECOND_QGRAM
    match HC4QV.fillLoop x stop END_FIRST_QGRAM B1 8 with
    | .oob => .oob
    | .out => .out
    | .ok B2 => .ok (B2, H)

/-- Inner naive-matching loop of the KMP verification:
`while (pattern_pos < m && x[pattern_pos] == y[next_verify_pos])`,
advancing both cursors; the text read is checked. -/
def naiveLoop (x y : List Nat) (pp nv : Int) (fuel : Nat) :
    CRes (Int × Int) :=
  match fuel with
  | 0 => .out
  | fuel + 1 =>
    if pp < (x.length : Int) then
      match rdQ y nv with
      | none => .oob
      | some b =>
        if rd x pp = b then naiveLoop x y (pp + 1) (nv + 1) fuel
        else .ok (pp, nv)
    else .ok (pp, nv)

/-- Outer KMP verification loop:
`while (pattern_pos >= next_verify_pos - window_start_pos)` run the
naive loop, count a full match, follow the failure link, and apply the
`-1 → advance both` fallback. -/
def verifyLoop (x y : List Nat) (K : Int → Int) (window_start : Int)
    (pp nv : Int) (count : Nat) (fuel : Nat) : CRes (Int × Int × Nat) :=
  match fuel with
  | 0 => .out
  | fuel + 1 =>
    if nv - window_start ≤ pp then
      match naiveLoop x y pp nv (x.length + 1) with
      | .oob => .oob
      | .out => .out
      | .ok (pp2, nv2) =>
        let count2 := if pp2 = (x.length : Int) then count + 1 else count
        let pp3 := K pp2
        let pp4 := if pp3 < 0 then pp3 + 1 else pp3
        let nv3 := if pp3 < 0 then nv2 + 1 else nv2
        verifyLoop x y K window_start pp4 nv3 count2 fuel
    else .ok (pp, nv, count)

/-- Backward chain walk of the lhc4 scanner (checked reads), bounded
below by `scan_back_pos`. -/
def walk (y : List Nat) (B : Nat → Nat) (V H : Nat) (pos scan_back : Int)
    (fuel : Nat) : HC4QV.WalkRes :=
  match fuel with
  | 0 => .out
  | fuel + 1 =>
    if scan_back ≤ pos then
      let pos2 := pos - Q
      match HC4QV.CHAIN_HASH? y pos2 with
      | none => .oob
      | some h =>
        let H2 := h % M32
        if V &&& HC4QV.LINK_HASH H2 = 0 then .fail pos2
        else walk y B (B (H2 &&& TABLE_MASK)) H2 pos2 scan_back fuel
    else .complete H

/-- Main scanning loop of `search` in lhc4.c: probe, guarded backward
walk, then KMP verification resuming from the saved
`(next_verify_pos, pattern_pos)` cursor. -/
def mainLoop (x y : List Nat) (B : Nat → Nat) (K : Int → Int) (MQ1 : Int)
    (pos rightmost nv pp : Int) (count : Nat) (fuel : Nat) : CRes Nat :=
  match fuel with
  | 0 => .out
  | fuel + 1 =>
    let n : Int := y.length
    let m : Int := x.length
    if pos < n then
      match HC4QV.CHAIN_HASH? y pos with
      | none => .oob
      | some h =>
        let H := h % M32
        let V := B (H &&& TABLE_MASK)
        if V ≠ 0 then
          let end_first := pos - m + Q
          let scan_back := max end_first rightmost + Q
          let rightmost2 := pos
          match walk y B V H pos scan_back (pos.toNat + 1) with
          | .oob => .oob
          | .out => .out
          | .fail p2 => mainLoop x y B K MQ1 (p2 + MQ1) rightmost2 nv pp count fuel
          | .complete _ =>
            let window_start := end_first - Q + 1
            let nv1 := if window_start > nv then window_start else nv
            let pp1 := if window_start > nv then 0 else pp
            match verifyLoop x y K window_start pp1 nv1 count
                (y.length + x.length + 2) with
            | .oob => .oob
            | .out => .out
            | .ok (pp2, nv2, count2) =>
              mainLoop x y B K MQ1 (nv2 + m - 1 - pp2) rightmost2 nv2 pp2 count2 fuel
        else mainLoop x y B K MQ1 (pos + MQ1) rightmost nv pp count fuel
    else .ok count

/-- `search(x, m, y, n)` of lhc4.c. -/
def search (x y : List Nat) : CRes Int :=
  let m : Int := x.length
  if m < Q then .ok (-1)
  else
    let MQ1 := m - Q + 1
    match preprocessing x with
    | .oob => .oob
    | .out => .out
    | .ok (B, _) =>
      match pre_kmp x with
      | none => .out
      | some K =>
        match mainLoop x y B K MQ1 (m - 1) 0 0 0 0 (y.length + 1) with
        | .oob => .oob
        | .out => .out
        | .ok c => .ok (Int.ofNat c)

end LHC4

/-!
## thc2-1.c — the rolling variant with the sentinel-copy trick

Before scanning, `search` copies the pattern into the tail of the text
buffer: `for (i = 0; i < m; i++) y[n + i] = x[i]`.  Only this mutation
step is embedded; the claims about it concern which cells of `y` it
writes.
-/

namespace THC21

/-- The sentinel-copy loop of `search` in thc2-1.c, on a text buffer
`y` whose logical text length is `n` (the C caller reserves a writable
tail of length `m` after position `n`). -/
def copyPattern (x y : List Nat) (n : Nat) : List Nat :=
  (List.range x.length).foldl (fun acc i => acc.set (n + i) (x.getD i 0)) y

end THC21

/-!
## hc6.c — fingerprint of the leading-q-gram fill

hc6's `FINGERPRINT` macro is the same one-hot fingerprint; its
leading-q-gram fill uses `FINGERPRINT(CHAIN_HASH(x, anchor) ^ 0xFF)`.
-/

namespace HC6

def FINGERPRINT (H : Nat) : Nat := 1 <<< (H &&& 31)

end HC6

/-!
## Proof infrastructure definitions
-/

namespace HC3

/-- The rolling hash sequence along a backward chain anchored at
position `p`: `rollSeq l p 0` is the (stored) anchor hash at `p`, and
`rollSeq l p (j+1)` rolls in the chain hash at `p - Q*(j+1)`.  Both the
preprocessing chains and the scanner's walk compute prefixes of this
sequence. -/
def rollSeq (l : List Nat) (p : Int) : Nat → Nat
  | 0 => ANCHOR_HASH l p % M32
  | j + 1 => ((rollSeq l p j <<< S2) + CHAIN_HASH l (p - Q * ((j : Int) + 1))) % M32

end HC3

/-- The number of occurrences of `x` in `y` whose last window position
`i + m - 1` is at or beyond the scanner cursor `pos`: exactly the
occurrences the hc3 scanner has yet to count when its main loop is
entered with cursor `pos`. -/
def countFrom (x y : List Nat) (pos : Int) : Nat :=
  (occList x y).countP (fun (i : Nat) => decide (pos ≤ (i : Int) + (x.length : Int) - 1))

/-- `t` is (the length of) a prefix of `x[0..j)` that is also its
suffix: `x[k] = x[j - t + k]` for every `k < t`. -/
def borderEq (x : List Nat) (t j : Int) : Prop :=
  ∀ k : Int, 0 ≤ k → k < t → rd x k = rd x (j - t + k)

/-- Property of a stored KMP table entry: `-1`, or a proper border of
`x[0..j)` whose next character differs from `x[j]` (the latter only
meaningful while `j < m`). -/
def kmpEntryProp (x : List Nat) (K : Int → Int) (j : Int) : Prop :=
  K j = -1 ∨
    (0 ≤ K j ∧ K j < j ∧ borderEq x (K j) j ∧
      (j < (x.length : Int) → rd x (K j) ≠ rd x j))

/-- The KMP table of lhc4's `pre_kmp` as a total function (the fuel
given by `pre_kmp` is proved sufficient below). -/
def preKmpTable (x : List Nat) : Int → Int :=
  (LHC4.pre_kmp x).getD (fun _ => 0)

/-- The hash table built by hc4-qverify preprocessing, as a total
function (preprocessing is proved to succeed for `m ≥ 2Q - 1` below). -/
def preprocB4 (x : List Nat) : Nat → Nat :=
  match HC4QV.preprocessing x with
  | .ok p => p.1
  | _ => fun _ => 0

/-!
# Theorems
-/

/-- Claim C1 (code evidence): on the specification's own scenario
`x = "aaaa"`, `y = "aaaaaaa"` (bytes 97), with `m = Q = 4`, the
hc4-qverify `search` does not return the occurrence count 4: its
preprocessing evaluates `CHAIN_HASH(x, 0)`, reading `x[-1]`, `x[-2]`,
`x[-3]`, so the checked embedding aborts with an out-of-bounds access
where the C code's behaviour is undefined. -/
theorem hc4qverify_short_pattern_reads_out_of_bounds :
    HC4QV.search [97, 97, 97, 97] [97, 97, 97, 97, 97, 97, 97] = CRes.oob ∧
    occCount [97, 97, 97, 97] [97, 97, 97, 97, 97, 97, 97] = 4 := by
  constructor
  · rfl
  · rfl

/-- Claim C8 (code evidence): for a pattern of length 5 (so
`Q ≤ m < 2Q - 1` in the hc4-qverify variant), preprocessing evaluates
the chain hash at position `m - Q = 1` and reads `x[-1]`, `x[-2]`; the
checked embedding aborts with an out-of-bounds access.  The shc2-1
preprocessing has the same unguarded `chain_no = Q` start and fails the
same way at `m = Q = 2`. -/
theorem hc4qverify_preprocessing_oob_small_m :
    HC4QV.preprocessing [5, 6, 7, 8, 9] = CRes.oob := by
  rfl

/-- Claim C3 (counterexample): the claimed direction of the chain
invariant is reversed.  For the pattern `x = [0,1,…,11]` and the
adjacent q-gram pair at positions `3` and `7`, the word
`B[h(g_3) & TABLE_MASK]` does **not** contain the fingerprint bit of
`h(g_7)`; the source stores the fingerprint of the earlier q-gram's
hash into the word of the later q-gram's hash, not the other way
around. -/
theorem hc4qverify_chain_direction_counterexample :
    (match HC4QV.preprocessing [0, 1, 2, 3, 4, 5, 6, 7, 8, 9, 10, 11] with
      | .ok p =>
          p.1 (HC4QV.CHAIN_HASH [0, 1, 2, 3, 4, 5, 6, 7, 8, 9, 10, 11] 3 &&& HC4QV.TABLE_MASK) &&&
            HC4QV.LINK_HASH (HC4QV.CHAIN_HASH [0, 1, 2, 3, 4, 5, 6, 7, 8, 9, 10, 11] 7) = 0
      | .oob => False
      | .out => False) := by
  rfl

/-- Claim C6 (counterexample): the claimed optimisation property
`KMP[j] ≥ 0 → x[KMP[j]] ≠ x[j]` fails at `j = m`.  For the all-zero
pattern `x = [0,0]` the table has `KMP[2] = 1 ≥ 0`, but `x[2]` is one
past the end of the pattern (an out-of-bounds read in C; the defaulting
embedding reads 0), and `x[1] = 0` equals it. -/
theorem pre_kmp_optimisation_fails_at_m :
    (match LHC4.pre_kmp [0, 0] with
      | some K => K 2 = 1 ∧ rd [0, 0] (K 2) = rd [0, 0] 2
      | none => False) := by
  constructor
  · rfl
  · rfl

/-- An `Option.map Int.ofNat` value is never the sentinel `-1`. -/
lemma map_ofNat_ne_neg_one (o : Option Nat) : o.map Int.ofNat ≠ some (-1) := by
  cases o with
  | none => simp
  | some c => simp [Int.ofNat]

/-- hc3 `search` on a short pattern returns the sentinel. -/
lemma hc3_search_short (x y : List Nat) (h : (x.length : Int) < 3) :
    HC3.search x y = some (-1) := by
  simp only [HC3.search, HC3.Q]
  rw [if_pos h]

/-- hc3 `search` unfolded on a long-enough pattern. -/
lemma hc3_search_long (x y : List Nat) (h : ¬ (x.length : Int) < 3) :
    HC3.search x y =
      (HC3.mainLoop x y (HC3.preprocessing x).1 (HC3.preprocessing x).2
        ((x.length : Int) - 3 + 1) ((x.length : Int) - 1) 0 (y.length + 1)).map
        Int.ofNat := by
  simp only [HC3.search, HC3.Q]
  rw [if_neg h]

/-- whc3 `search` on a short pattern returns the sentinel. -/
lemma whc3_search_short (x y : List Nat) (h : (x.length : Int) < 3) :
    WHC3.search x y = some (-1) := by
  simp only [WHC3.search, WHC3.Q]
  rw [if_pos h]

/-- whc3 `search` unfolded on a long-enough pattern. -/
lemma whc3_search_long (x y : List Nat) (h : ¬ (x.length : Int) < 3) :
    WHC3.search x y =
      (WHC3.mainLoop x y (WHC3.preprocessing x).1
        ((x.length : Int) - 3 + 1) ((x.length : Int) - 1) 0 0 (y.length + 1)).map
        Int.ofNat := by
  simp only [WHC3.search, WHC3.Q]
  rw [if_neg h]

/-- Claim C5: `search` returns the sentinel `-1` exactly when `m < Q`
(shown for the cited hc3 and whc3 variants; the sentinel branch returns
before preprocessing by definition of `search`), and on `m ≥ Q` any
returned count is non-negative. -/
theorem search_sentinel_iff_short_pattern (x y : List Nat) :
    (HC3.search x y = some (-1) ↔ x.length < 3) ∧
    (WHC3.search x y = some (-1) ↔ x.length < 3) ∧
    (∀ c : Int, 3 ≤ x.length → HC3.search x y = some c → 0 ≤ c) ∧
    (∀ c : Int, 3 ≤ x.length → WHC3.search x y = some c → 0 ≤ c) := by
  refine ⟨?_, ?_, ?_, ?_⟩
  · by_cases h : (x.length : Int) < 3
    · rw [hc3_search_short x y h]
      simp
      omega
    · rw [hc3_search_long x y h]
      constructor
      · intro hmap
        exact absurd hmap (map_ofNat_ne_neg_one _)
      · intro hlen
        omega
  · by_cases h : (x.length : Int) < 3
    · rw [whc3_search_short x y h]
      simp
      omega
    · rw [whc3_search_long x y h]
      constructor
      · intro hmap
        exact absurd hmap (map_ofNat_ne_neg_one _)
      · intro hlen
        omega
  · intro c h3 hc
    rw [hc3_search_long x y (by omega)] at hc
    cases hr : HC3.mainLoop x y (HC3.preprocessing x).1 (HC3.preprocessing x).2
        ((x.length : Int) - 3 + 1) ((x.length : Int) - 1) 0 (y.length + 1) with
    | none => rw [hr] at hc; simp at hc
    | some k => rw [hr] at hc; simp [Int.ofNat] at hc; omega
  · intro c h3 hc
    rw [whc3_search_long x y (by omega)] at hc
    cases hr : WHC3.mainLoop x y (WHC3.preprocessing x).1
        ((x.length : Int) - 3 + 1) ((x.length : Int) - 1) 0 0 (y.length + 1) with
    | none => rw [hr] at hc; simp at hc
    | some k => rw [hr] at hc; simp [Int.ofNat] at hc; omega

/-- Witness for C5 at a concrete input. -/
theorem search_sentinel_iff_short_pattern_witness :
    (HC3.search [7, 8, 9] [7, 8, 9, 7] = some (-1) ↔ ([7, 8, 9] : List Nat).length < 3) ∧
    (WHC3.search [7, 8, 9] [7, 8, 9, 7] = some (-1) ↔ ([7, 8, 9] : List Nat).length < 3) ∧
    (∀ c : Int, 3 ≤ ([7, 8, 9] : List Nat).length →
      HC3.search [7, 8, 9] [7, 8, 9, 7] = some c → 0 ≤ c) ∧
    (∀ c : Int, 3 ≤ ([7, 8, 9] : List Nat).length →
      WHC3.search [7, 8, 9] [7, 8, 9, 7] = some c → 0 ≤ c) :=
  search_sentinel_iff_short_pattern [7, 8, 9] [7, 8, 9, 7]

/-- Stepwise description of the sentinel-copy fold: length, untouched
cells, and written cells. -/
lemma copyPattern_aux (x : List Nat) (n : Nat) :
    ∀ (k : Nat) (y : List Nat),
      ((List.range k).foldl (fun acc i => acc.set (n + i) (x.getD i 0)) y).length = y.length ∧
      (∀ j, (j < n ∨ n + k ≤ j) →
        ((List.range k).foldl (fun acc i => acc.set (n + i) (x.getD i 0)) y).getD j 0 = y.getD j 0) ∧
      (∀ i, i < k → n + k ≤ y.length →
        ((List.range k).foldl (fun acc i => acc.set (n + i) (x.getD i 0)) y).getD (n + i) 0 = x.getD i 0) := by
  intro k
  induction k with
  | zero =>
    intro y
    refine ⟨rfl, fun j _ => rfl, fun i hi _ => absurd hi (by omega)⟩
  | succ k ih =>
    intro y
    rw [List.range_succ, List.foldl_append]
    obtain ⟨ihl, ihu, ihw⟩ := ih y
    refine ⟨?_, ?_, ?_⟩
    · simp only [List.foldl_cons, List.foldl_nil]
      rw [List.length_set]
      exact ihl
    · intro j hj
      have hne : n + k ≠ j := by omega
      simp only [List.foldl_cons, List.foldl_nil]
      rw [List.getD_eq_getElem?_getD, List.getElem?_set_ne hne, ← List.getD_eq_getElem?_getD]
      exact ihu j (by omega)
    · intro i hi hlen
      simp only [List.foldl_cons, List.foldl_nil]
      by_cases hik : i = k
      · subst hik
        have hlt : n + i <
            ((List.range i).foldl (fun acc j => acc.set (n + j) (x.getD j 0)) y).length := by
          rw [ihl]; omega
        rw [List.getD_eq_getElem?_getD, List.getElem?_set_self hlt]
        rfl
      · have hne : n + k ≠ n + i := by omega
        rw [List.getD_eq_getElem?_getD, List.getElem?_set_ne hne, ← List.getD_eq_getElem?_getD]
        exact ihw i (by omega) (by omega)

/-- Claim C9: on a buffer with a reserved tail (`n + m ≤ |y|`), the
thc2-1 sentinel copy leaves the text prefix `y[0..n)` unchanged and
writes `y[n+i] = x[i]` for every `i < m`, preserving the buffer length.
The pattern `x` is untouched (the embedding of every variant is a pure
function of `x`, and no variant's source assigns to `x`; only thc2-1
assigns to `y`, in exactly this loop). -/
theorem thc21_sentinel_copy_frame (x y : List Nat) (n : Nat)
    (h : n + x.length ≤ y.length) :
    (THC21.copyPattern x y n).length = y.length ∧
    (∀ j, j < n → (THC21.copyPattern x y n).getD j 0 = y.getD j 0) ∧
    (∀ i, i < x.length → (THC21.copyPattern x y n).getD (n + i) 0 = x.getD i 0) := by
  have hh := copyPattern_aux x n x.length y
  exact ⟨hh.1, fun j hj => hh.2.1 j (Or.inl hj), fun i hi => hh.2.2 i hi h⟩

/-- Witness for C9 at a concrete input. -/
theorem thc21_sentinel_copy_frame_witness :
    2 + ([5, 6] : List Nat).length ≤ ([1, 2, 3, 4] : List Nat).length ∧
    ((THC21.copyPattern [5, 6] [1, 2, 3, 4] 2).length = ([1, 2, 3, 4] : List Nat).length ∧
      (∀ j, j < 2 → (THC21.copyPattern [5, 6] [1, 2, 3, 4] 2).getD j 0 = ([1, 2, 3, 4] : List Nat).getD j 0) ∧
      (∀ i, i < ([5, 6] : List Nat).length →
        (THC21.copyPattern [5, 6] [1, 2, 3, 4] 2).getD (2 + i) 0 = ([5, 6] : List Nat).getD i 0)) :=
  ⟨by decide, thc21_sentinel_copy_frame [5, 6] [1, 2, 3, 4] 2 (by decide)⟩

/-- The hc3/hc4/whc3/lhc4 fingerprint is the one-hot bit of the hash
value modulo 32. -/
lemma link_hash_eq_pow (H : Nat) : HC3.LINK_HASH H = 2 ^ (H % 32) := by
  unfold HC3.LINK_HASH
  rw [Nat.one_shiftLeft]
  congr 1
  have h31 : (31 : Nat) = 2 ^ 5 - 1 := by norm_num
  rw [h31, Nat.and_pow_two_sub_one_eq_mod]

/-- XOR with an odd mask changes the value modulo 32. -/
lemma xor_mod32_ne (F M : Nat) (hM : M % 2 = 1) :
    (F ^^^ M) % 32 ≠ F % 32 := by
  intro heq
  have h2 : (F ^^^ M) % 2 = F % 2 := by
    have hc := congrArg (· % 2) heq
    simpa [Nat.mod_mod_of_dvd _ (by norm_num : (2:Nat) ∣ 32)] using hc
  have hb : (F ^^^ M).testBit 0 = F.testBit 0 := by
    simp [h2]
  rw [Nat.testBit_xor] at hb
  have hMb : M.testBit 0 = true := by simp [hM]
  rw [hMb] at hb
  cases hF : F.testBit 0 <;> rw [hF] at hb <;> simp at hb

/-- The hc3 fill loop never clears an entry: it writes only entries
that are still zero. -/
lemma hc3_fill_preserves (x : List Nat) (stop : Int) :
    ∀ (fuel : Nat) (anchor : Int) (B : Nat → Nat) (idx : Nat),
      B idx ≠ 0 → HC3.fillLoop x stop anchor B fuel idx ≠ 0 := by
  intro fuel
  induction fuel with
  | zero => intro anchor B idx h; exact h
  | succ fuel ih =>
    intro anchor B idx h
    unfold HC3.fillLoop
    split
    · apply ih
      split
      · rename_i hz
        unfold updB
        split
        · rename_i hidx
          rw [hidx] at h
          exact absurd hz h
        · exact h
      · exact h
    · exact h

/-- After the hc3 fill loop runs over `[anchor, stop)`, the entry of
every anchor hash in that range is non-zero. -/
lemma hc3_fill_sets (x : List Nat) (stop : Int) :
    ∀ (fuel : Nat) (anchor p : Int) (B : Nat → Nat),
      anchor ≤ p → p < stop → (p - anchor).toNat < fuel →
      HC3.fillLoop x stop anchor B fuel
        ((HC3.ANCHOR_HASH x p % M32) &&& HC3.TABLE_MASK) ≠ 0 := by
  intro fuel
  induction fuel with
  | zero => intro anchor p B h1 h2 h3; omega
  | succ fuel ih =>
    intro anchor p B h1 h2 h3
    unfold HC3.fillLoop
    rw [if_pos (by omega : anchor < stop)]
    by_cases hap : anchor = p
    · subst hap
      apply hc3_fill_preserves
      split
      · unfold updB
        rw [if_pos rfl]
        rw [link_hash_eq_pow]
        exact (Nat.pos_pow_of_pos _ (by norm_num)).ne'
      · rename_i hz
        exact hz
    · apply ih
      · omega
      · omega
      · omega

/-- Claim C10: the inverted-hash fingerprint used for the leading
q-grams is non-zero, differs from the fingerprint of the hash itself
(and likewise hc6's `fp(F ^ 0xFF)` differs from `fp(F)`), and hence
after hc3 preprocessing the table entry of every leading q-gram
position `p ∈ [Q-1, min(m, 2Q-1))` is non-zero. -/
theorem fingerprint_inverse_nonzero_and_distinct :
    (∀ F : Nat, HC3.LINK_HASH (F ^^^ (M32 - 1)) ≠ 0) ∧
    (∀ F : Nat, HC3.LINK_HASH (F ^^^ (M32 - 1)) ≠ HC3.LINK_HASH F) ∧
    (∀ F : Nat, HC6.FINGERPRINT (F ^^^ 255) ≠ HC6.FINGERPRINT F) ∧
    (∀ (x : List Nat) (p : Int), 2 ≤ p → p < min (x.length : Int) 5 →
      (HC3.preprocessing x).1 ((HC3.ANCHOR_HASH x p % M32) &&& HC3.TABLE_MASK) ≠ 0) := by
  refine ⟨?_, ?_, ?_, ?_⟩
  · intro F
    rw [link_hash_eq_pow]
    exact (Nat.pos_pow_of_pos _ (by norm_num)).ne'
  · intro F
    rw [link_hash_eq_pow, link_hash_eq_pow]
    intro h
    exact xor_mod32_ne F (M32 - 1) (by decide) (Nat.pow_right_injective (le_refl 2) h)
  · intro F
    have he : ∀ H, HC6.FINGERPRINT H = HC3.LINK_HASH H := fun _ => rfl
    rw [he, he, link_hash_eq_pow, link_hash_eq_pow]
    intro h
    exact xor_mod32_ne F 255 (by decide) (Nat.pow_right_injective (le_refl 2) h)
  · intro x p h2 h5
    have hB : (HC3.preprocessing x).1 =
        HC3.fillLoop x (min (x.length : Int) 5) 2
          (HC3.anchorLoop x (x.length : Int) 5 (fun _ => 0) (x.length + 1)) 6 := rfl
    rw [hB]
    exact hc3_fill_sets x _ 6 2 p _ h2 h5 (by omega)

/-- Witness for C10 at a concrete input. -/
theorem fingerprint_inverse_nonzero_and_distinct_witness :
    (2 : Int) ≤ 2 ∧ (2 : Int) < min (([9, 9, 9, 9] : List Nat).length : Int) 5 ∧
    (HC3.preprocessing [9, 9, 9, 9]).1
      ((HC3.ANCHOR_HASH [9, 9, 9, 9] 2 % M32) &&& HC3.TABLE_MASK) ≠ 0 :=
  ⟨by decide, by decide,
    fingerprint_inverse_nonzero_and_distinct.2.2.2 [9, 9, 9, 9] 2 (by decide) (by decide)⟩

/-- Composition of borders: a border of a border is a border. -/
lemma borderEq_trans (x : List Nat) (s t j : Int) (hst : s ≤ t) (_htj : t ≤ j)
    (h1 : borderEq x s t) (h2 : borderEq x t j) : borderEq x s j := by
  intro k hk0 hks
  rw [h1 k hk0 hks]
  have h3 := h2 (t - s + k) (by omega) (by omega)
  rw [h3]
  congr 1
  omega

lemma borderEq_extend (x : List Nat) (t j : Int) (ht0 : 0 ≤ t)
    (hb : borderEq x t j) (he : rd x j = rd x t) :
    borderEq x (t + 1) (j + 1) := by
  intro k hk0 hkt
  by_cases hk : k < t
  · have h4 := hb k hk0 hk
    rw [h4]
    congr 1
    omega
  · have hkt2 : k = t := by omega
    subst hkt2
    have h5 : j + 1 - (k + 1) + k = j := by omega
    rw [h5]
    exact he.symm

lemma borderEq_zero (x : List Nat) (j : Int) : borderEq x 0 j := by
  intro k hk0 hk
  omega

lemma kmpDescend_spec (x : List Nat) (K : Int → Int) (j : Int)
    (hstored : ∀ j', 0 ≤ j' → j' < j → kmpEntryProp x K j') :
    ∀ (fuel : Nat) (t : Int), -1 ≤ t → t < j → (0 ≤ t → borderEq x t j) →
      (t + 2).toNat ≤ fuel →
      ∃ t2, LHC4.kmpDescend x K j t fuel = some t2 ∧ -1 ≤ t2 ∧ t2 < j ∧
        (0 ≤ t2 → borderEq x t2 j ∧ rd x j = rd x t2) := by
  intro fuel
  induction fuel with
  | zero => intro t h1 h2 h3 h4; omega
  | succ fuel ih =>
    intro t h1 h2 h3 h4
    unfold LHC4.kmpDescend
    by_cases hc : -1 < t ∧ rd x j ≠ rd x t
    · rw [if_pos hc]
      have ht0 : 0 ≤ t := by omega
      have hsp := hstored t ht0 h2
      unfold kmpEntryProp at hsp
      rcases hsp with hm1 | ⟨hk0, hkt, hkb, _⟩
      · rw [hm1]
        exact ih (-1) (by omega) (by omega) (by intro h; omega) (by omega)
      · apply ih (K t) (by omega) (by omega)
        · intro _
          exact borderEq_trans x (K t) t j (by omega) (by omega) hkb (h3 ht0)
        · have h6 : K t + 2 ≤ t + 1 := by omega
          omega
    · rw [if_neg hc]
      refine ⟨t, rfl, h1, h2, ?_⟩
      intro ht0
      have hej : rd x j = rd x t := by
        by_cases he : rd x j = rd x t
        · exact he
        · exact absurd ⟨by omega, by exact fun hh => he hh⟩ hc
      exact ⟨h3 ht0, hej⟩

lemma kmpOuter_spec (x : List Nat) :
    ∀ (fuel : Nat) (j t : Int) (K : Int → Int),
      0 ≤ j → j ≤ (x.length : Int) → -1 ≤ t → t < j ∨ (j = 0 ∧ t = -1) →
      (0 ≤ t → borderEq x t j) →
      (∀ j', 0 ≤ j' → j' ≤ j → kmpEntryProp x K j') →
      ((x.length : Int) - j).toNat < fuel →
      ∃ K2, LHC4.kmpOuter x K j t fuel = some K2 ∧
        (∀ j', 0 ≤ j' → j' ≤ (x.length : Int) → kmpEntryProp x K2 j') := by
  intro fuel
  induction fuel with
  | zero => intro j t K h1 h2 h3 h4 h5 h6 h7; omega
  | succ fuel ih =>
    intro j t K hj0 hjm ht1 htj htb hst hfl
    unfold LHC4.kmpOuter
    by_cases hcond : j < (x.length : Int)
    · rw [if_pos hcond]
      have htj2 : t < j ∨ (j = 0 ∧ t = -1) := htj
      have htjlt : t < j := by
        rcases htj with h | ⟨hj, ht⟩
        · exact h
        · omega
      have hstored : ∀ j', 0 ≤ j' → j' < j → kmpEntryProp x K j' :=
        fun j' a b => hst j' a (by omega)
      obtain ⟨t2, hd, ht2a, ht2b, ht2c⟩ :=
        kmpDescend_spec x K j hstored (t.toNat + 2) t ht1 htjlt htb (by omega)
      rw [hd]
      dsimp only
      -- the new entry at j+1
      have htb3 : borderEq x (t2 + 1) (j + 1) := by
        by_cases h0 : 0 ≤ t2
        · exact borderEq_extend x t2 j h0 ((ht2c h0).1) ((ht2c h0).2)
        · have : t2 = -1 := by omega
          subst this
          simpa using borderEq_zero x (j + 1)
      set t3 := t2 + 1 with ht3def
      have ht30 : 0 ≤ t3 := by omega
      have ht3j : t3 ≤ j := by omega
      by_cases hbr : j + 1 < (x.length : Int) ∧ rd x (j + 1) = rd x t3
      · rw [if_pos hbr]
        -- K2 = updK K (j+1) (K t3)
        apply ih (j + 1) t3 (LHC4.updK K (j + 1) (K t3)) (by omega) (by omega)
          (by omega) (by omega) (fun _ => htb3)
        · intro j' hj'0 hj'le
          by_cases hje : j' = j + 1
          · subst hje
            have hsp3 := hst t3 ht30 ht3j
            unfold kmpEntryProp at hsp3 ⊢
            unfold LHC4.updK
            rw [if_pos rfl]
            rcases hsp3 with hm1 | ⟨ha, hb, hc2, hd2⟩
            · exact Or.inl hm1
            · refine Or.inr ⟨ha, by omega, ?_, ?_⟩
              · exact borderEq_trans x (K t3) t3 (j + 1) (by omega) (by omega) hc2 htb3
              · intro _
                have ht3m : t3 < (x.length : Int) := by omega
                have := hd2 ht3m
                rw [hbr.2]
                exact this
          · have := hst j' hj'0 (by omega)
            unfold kmpEntryProp at this ⊢
            unfold LHC4.updK
            rw [if_neg hje]
            exact this
        · omega
      · rw [if_neg hbr]
        apply ih (j + 1) t3 (LHC4.updK K (j + 1) t3) (by omega) (by omega)
          (by omega) (by omega) (fun _ => htb3)
        · intro j' hj'0 hj'le
          by_cases hje : j' = j + 1
          · subst hje
            unfold kmpEntryProp
            unfold LHC4.updK
            rw [if_pos rfl]
            refine Or.inr ⟨ht30, by omega, htb3, ?_⟩
            intro hjm1
            intro heq
            exact hbr ⟨hjm1, heq.symm⟩
          · have := hst j' hj'0 (by omega)
            unfold kmpEntryProp at this ⊢
            unfold LHC4.updK
            rw [if_neg hje]
            exact this
        · omega
    · rw [if_neg hcond]
      have hjeq : j = (x.length : Int) := by omega
      refine ⟨K, rfl, ?_⟩
      intro j' hj'0 hj'le
      exact hst j' hj'0 (by omega)

lemma pre_kmp_table (x : List Nat) :
    LHC4.pre_kmp x = some (preKmpTable x) ∧
    (∀ j', 0 ≤ j' → j' ≤ (x.length : Int) → kmpEntryProp x (preKmpTable x) j') := by
  have hinit : ∀ j', 0 ≤ j' → j' ≤ (0 : Int) →
      kmpEntryProp x (LHC4.updK (fun _ => 0) 0 (-1)) j' := by
    intro j' h0 h1
    have hj0 : j' = 0 := by omega
    subst hj0
    unfold kmpEntryProp LHC4.updK
    rw [if_pos rfl]
    exact Or.inl rfl
  obtain ⟨K2, heq, hprop⟩ :=
    kmpOuter_spec x (x.length + 1) 0 (-1) (LHC4.updK (fun _ => 0) 0 (-1))
      (by omega) (by omega) (by omega) (Or.inr ⟨rfl, rfl⟩)
      (by intro h; omega) hinit (by omega)
  have hpre : LHC4.pre_kmp x = some K2 := heq
  have htab : preKmpTable x = K2 := by
    unfold preKmpTable
    rw [hpre]
    rfl
  rw [htab]
  exact ⟨hpre, hprop⟩

/-- Claim C6 (amended): `KMP[0] = -1`; for `1 ≤ j ≤ m`, a non-negative
entry `KMP[j]` is a proper border length of `x[0..j)`
(`x[0..KMP[j]) = x[j-KMP[j]..j)`), and for `1 ≤ j ≤ m - 1` the
optimisation holds: `KMP[j] ≥ 0 → x[KMP[j]] ≠ x[j]`.  (At `j = m` the
optimisation refers to `x[m]`, outside the pattern; see the
counterexample.) -/
theorem pre_kmp_border_and_optimisation (x : List Nat) :
    preKmpTable x 0 = -1 ∧
    ∀ j : Int, 1 ≤ j → j ≤ (x.length : Int) →
      (0 ≤ preKmpTable x j → preKmpTable x j < j ∧ borderEq x (preKmpTable x j) j) ∧
      (j < (x.length : Int) → 0 ≤ preKmpTable x j →
        rd x (preKmpTable x j) ≠ rd x j) := by
  obtain ⟨heq, hprop⟩ := pre_kmp_table x
  constructor
  · have h0 := hprop 0 (by omega) (by positivity)
    unfold kmpEntryProp at h0
    rcases h0 with h | ⟨ha, hb, _⟩
    · exact h
    · omega
  · intro j h1 h2
    have hj := hprop j (by omega) h2
    unfold kmpEntryProp at hj
    constructor
    · intro hge
      rcases hj with h | ⟨ha, hb, hc, _⟩
      · omega
      · exact ⟨hb, hc⟩
    · intro hlt hge
      rcases hj with h | ⟨ha, hb, hc, hd⟩
      · omega
      · exact hd hlt

/-- Witness for C6 at the pattern `[1,2,1,2]`, `j = 4`. -/
theorem pre_kmp_border_and_optimisation_witness :
    (1 : Int) ≤ 4 ∧ (4 : Int) ≤ (([1, 2, 1, 2] : List Nat).length : Int) ∧
    ((0 ≤ preKmpTable [1, 2, 1, 2] 4 →
        preKmpTable [1, 2, 1, 2] 4 < 4 ∧ borderEq [1, 2, 1, 2] (preKmpTable [1, 2, 1, 2] 4) 4) ∧
      ((4 : Int) < (([1, 2, 1, 2] : List Nat).length : Int) → 0 ≤ preKmpTable [1, 2, 1, 2] 4 →
        rd [1, 2, 1, 2] (preKmpTable [1, 2, 1, 2] 4) ≠ rd [1, 2, 1, 2] 4)) :=
  ⟨by decide, by decide,
    (pre_kmp_border_and_optimisation [1, 2, 1, 2]).2 4 (by decide) (by decide)⟩

lemma and_or_bit_keep (a v w : Nat) (h : a &&& w ≠ 0) : (a ||| v) &&& w ≠ 0 := by
  obtain ⟨i, hi⟩ := Nat.ne_zero_implies_bit_true h
  intro hz
  have hb : ((a ||| v) &&& w).testBit i = false := by rw [hz]; simp
  rw [Nat.testBit_and, Nat.testBit_or] at hb
  rw [Nat.testBit_and] at hi
  cases ha : a.testBit i <;> cases hw : w.testBit i <;>
    rw [ha, hw] at hi hb <;> simp_all

lemma or_self_bit (a v : Nat) (hv : v ≠ 0) : (a ||| v) &&& v ≠ 0 := by
  obtain ⟨i, hi⟩ := Nat.ne_zero_implies_bit_true hv
  intro hz
  have hb : ((a ||| v) &&& v).testBit i = false := by rw [hz]; simp
  rw [Nat.testBit_and, Nat.testBit_or, hi] at hb
  simp at hb

lemma rdQ_some (l : List Nat) (i : Int) (v : Nat) (h : rdQ l i = some v) :
    rd l i = v := by
  unfold rdQ at h
  unfold rd
  split at h
  · rename_i hc
    rw [if_neg (by omega)]
    exact (Option.some.injEq _ _).mp h
  · exact absurd h (by simp)

lemma hc4_chain_hash_some (l : List Nat) (p : Int) (h : Nat)
    (hh : HC4QV.CHAIN_HASH? l p = some h) : h = HC4QV.CHAIN_HASH l p := by
  unfold HC4QV.CHAIN_HASH? HC4QV.HASH? at hh
  cases h0 : rdQ l p with
  | none => rw [h0] at hh; simp at hh
  | some a =>
    cases h1 : rdQ l (p - 1) with
    | none => rw [h0, h1] at hh; simp at hh
    | some b =>
      cases h2 : rdQ l (p - 2) with
      | none => rw [h0, h1, h2] at hh; simp at hh
      | some c =>
        cases h3 : rdQ l (p - 3) with
        | none => rw [h0, h1, h2, h3] at hh; simp at hh
        | some d =>
          rw [h0, h1, h2, h3] at hh
          simp at hh
          unfold HC4QV.CHAIN_HASH
          rw [rdQ_some l p a h0, rdQ_some l (p-1) b h1, rdQ_some l (p-2) c h2,
            rdQ_some l (p-3) d h3]
          omega

lemma hc4_chain_hash_ok (l : List Nat) (p : Int) (h3 : 3 ≤ p)
    (hlt : p < (l.length : Int)) :
    HC4QV.CHAIN_HASH? l p = some (HC4QV.CHAIN_HASH l p) := by
  unfold HC4QV.CHAIN_HASH? HC4QV.HASH? HC4QV.CHAIN_HASH
  unfold rdQ rd
  rw [if_pos ⟨by omega, hlt⟩, if_pos ⟨by omega, by omega⟩,
    if_pos ⟨by omega, by omega⟩, if_pos ⟨by omega, by omega⟩]
  simp only [Option.bind_eq_bind, Option.bind_some]
  rw [if_neg (by omega), if_neg (by omega), if_neg (by omega), if_neg (by omega)]
  rfl

lemma hc4_chainLoop_keeps (x : List Nat) :
    ∀ (fuel : Nat) (cp : Int) (H : Nat) (B B' : Nat → Nat) (H' : Nat),
      HC4QV.chainLoop x cp H B fuel = .ok (B', H') →
      ∀ idx w, B idx &&& w ≠ 0 → B' idx &&& w ≠ 0 := by
  intro fuel
  induction fuel with
  | zero => intro cp H B B' H' hok; simp [HC4QV.chainLoop] at hok
  | succ fuel ih =>
    intro cp H B B' H' hok idx w hbit
    unfold HC4QV.chainLoop at hok
    split at hok
    · cases hh : HC4QV.CHAIN_HASH? x cp with
      | none => rw [hh] at hok; simp at hok
      | some h =>
        rw [hh] at hok
        dsimp only at hok
        apply ih _ _ _ _ _ hok
        unfold updB
        split
        · rename_i hidx
          rw [hidx] at hbit
          exact and_or_bit_keep _ _ _ hbit
        · exact hbit
    · simp at hok
      rw [← hok.1]
      exact hbit

lemma hc4_chainNoLoop_keeps (x : List Nat) :
    ∀ (fuel : Nat) (cn : Int) (H : Nat) (B B' : Nat → Nat) (H' : Nat),
      HC4QV.chainNoLoop x cn H B fuel = .ok (B', H') →
      ∀ idx w, B idx &&& w ≠ 0 → B' idx &&& w ≠ 0 := by
  intro fuel
  induction fuel with
  | zero => intro cn H B B' H' hok; simp [HC4QV.chainNoLoop] at hok
  | succ fuel ih =>
    intro cn H B B' H' hok idx w hbit
    unfold HC4QV.chainNoLoop at hok
    split at hok
    · cases hh : HC4QV.CHAIN_HASH? x ((x.length : Int) - cn) with
      | none => rw [hh] at hok; simp at hok
      | some h =>
        rw [hh] at hok
        dsimp only at hok
        cases hcl : HC4QV.chainLoop x ((x.length : Int) - cn - HC4QV.Q) (h % M32) B (x.length + 1) with
        | oob => rw [hcl] at hok; simp at hok
        | out => rw [hcl] at hok; simp at hok
        | ok p =>
          rw [hcl] at hok
          dsimp only at hok
          exact ih _ _ _ _ _ hok idx w
            (hc4_chainLoop_keeps x _ _ _ _ _ _ hcl idx w hbit)
    · simp at hok
      rw [← hok.1]
      exact hbit

lemma hc4_fillLoop_keeps (x : List Nat) (stop : Int) :
    ∀ (fuel : Nat) (cp : Int) (B B' : Nat → Nat),
      HC4QV.fillLoop x stop cp B fuel = .ok B' →
      ∀ idx w, B idx &&& w ≠ 0 → B' idx &&& w ≠ 0 := by
  intro fuel
  induction fuel with
  | zero => intro cp B B' hok; simp [HC4QV.fillLoop] at hok
  | succ fuel ih =>
    intro cp B B' hok idx w hbit
    unfold HC4QV.fillLoop at hok
    split at hok
    · cases hh : HC4QV.CHAIN_HASH? x cp with
      | none => rw [hh] at hok; simp at hok
      | some f =>
        rw [hh] at hok
        dsimp only at hok
        apply ih _ _ _ hok
        split
        · rename_i hz
          unfold updB
          split
          · rename_i hidx
            rw [hidx] at hbit
            rw [hz] at hbit
            simp at hbit
          · exact hbit
        · exact hbit
    · simp at hok
      rw [← hok]
      exact hbit

lemma hc4_chainLoop_ok (x : List Nat) :
    ∀ (fuel : Nat) (cp : Int) (H : Nat) (B : Nat → Nat),
      cp < (x.length : Int) → cp.toNat < fuel →
      ∃ B' H', HC4QV.chainLoop x cp H B fuel = .ok (B', H') := by
  intro fuel
  induction fuel with
  | zero => intro cp H B h1 h2; omega
  | succ fuel ih =>
    intro cp H B h1 h2
    unfold HC4QV.chainLoop
    by_cases hc : HC4QV.END_FIRST_QGRAM ≤ cp
    · rw [if_pos hc]
      have h3 : (3 : Int) ≤ cp := hc
      rw [hc4_chain_hash_ok x cp h3 h1]
      dsimp only
      exact ih (cp - HC4QV.Q) _ _ (by unfold HC4QV.Q; omega)
        (by unfold HC4QV.Q; omega)
    · rw [if_neg hc]
      exact ⟨B, H, rfl⟩

lemma hc4_chainNoLoop_ok (x : List Nat) :
    ∀ (fuel : Nat) (cn : Int) (H : Nat) (B : Nat → Nat),
      cn ≤ (x.length : Int) - 3 → cn.toNat < fuel →
      ∃ B' H', HC4QV.chainNoLoop x cn H B fuel = .ok (B', H') := by
  intro fuel
  induction fuel with
  | zero => intro cn H B h1 h2; omega
  | succ fuel ih =>
    intro cn H B h1 h2
    unfold HC4QV.chainNoLoop
    by_cases hc : 1 ≤ cn
    · rw [if_pos hc]
      rw [hc4_chain_hash_ok x ((x.length : Int) - cn) (by omega) (by omega)]
      dsimp only
      obtain ⟨B1, H1, hcl⟩ := hc4_chainLoop_ok x (x.length + 1)
        ((x.length : Int) - cn - HC4QV.Q) (HC4QV.CHAIN_HASH x ((x.length : Int) - cn) % M32) B
        (by unfold HC4QV.Q; omega) (by unfold HC4QV.Q; omega)
      rw [hcl]
      dsimp only
      exact ih (cn - 1) _ _ (by omega) (by omega)
    · rw [if_neg hc]
      exact ⟨B, H, rfl⟩

lemma hc4_fillLoop_ok (x : List Nat) (stop : Int) (hstop : stop ≤ (x.length : Int)) :
    ∀ (fuel : Nat) (cp : Int) (B : Nat → Nat),
      3 ≤ cp → (stop - cp).toNat < fuel →
      ∃ B', HC4QV.fillLoop x stop cp B fuel = .ok B' := by
  intro fuel
  induction fuel with
  | zero => intro cp B h1 h2; omega
  | succ fuel ih =>
    intro cp B h1 h2
    unfold HC4QV.fillLoop
    by_cases hc : cp < stop
    · rw [if_pos hc]
      rw [hc4_chain_hash_ok x cp h1 (by omega)]
      dsimp only
      exact ih (cp + 1) _ (by omega) (by omega)
    · rw [if_neg hc]
      exact ⟨B, rfl⟩

lemma hc4_preprocessing_ok (x : List Nat) (hm : 7 ≤ (x.length : Int)) :
    ∃ BH, HC4QV.preprocessing x = CRes.ok BH := by
  obtain ⟨B1, H1, hcn⟩ := hc4_chainNoLoop_ok x (HC4QV.Q.toNat + 1) HC4QV.Q 0 (fun _ => 0)
    (by unfold HC4QV.Q; omega) (by unfold HC4QV.Q; omega)
  obtain ⟨B2, hf⟩ := hc4_fillLoop_ok x (min (x.length : Int) HC4QV.END_SECOND_QGRAM)
    (by unfold HC4QV.END_SECOND_QGRAM HC4QV.Q; omega) 8 HC4QV.END_FIRST_QGRAM B1
    (by unfold HC4QV.END_FIRST_QGRAM HC4QV.Q; omega)
    (by unfold HC4QV.END_SECOND_QGRAM HC4QV.END_FIRST_QGRAM HC4QV.Q; omega)
  refine ⟨(B2, H1), ?_⟩
  unfold HC4QV.preprocessing
  dsimp only
  rw [hcn]
  dsimp only
  rw [hf]

lemma link_hash4_eq_pow (H : Nat) : HC4QV.LINK_HASH H = 2 ^ (H % 32) :=
  link_hash_eq_pow H

lemma hc4_chainLoop_inserts (x : List Nat) :
    ∀ (fuel : Nat) (cp : Int) (H : Nat) (B B2 : Nat → Nat) (H2 : Nat),
      HC4QV.chainLoop x cp H B fuel = .ok (B2, H2) →
      H = HC4QV.CHAIN_HASH x (cp + 4) % M32 →
      ∀ p, 3 ≤ p → p ≤ cp → (cp - p) % 4 = 0 →
      B2 (HC4QV.CHAIN_HASH x (p + 4) % M32 &&& HC4QV.TABLE_MASK) &&&
        HC4QV.LINK_HASH (HC4QV.CHAIN_HASH x p % M32) ≠ 0 := by
  intro fuel
  induction fuel with
  | zero => intro cp H B B2 H2 hok; simp [HC4QV.chainLoop] at hok
  | succ fuel ih =>
    intro cp H B B2 H2 hok hH p hp3 hpc hmod
    unfold HC4QV.chainLoop at hok
    rw [if_pos (show HC4QV.END_FIRST_QGRAM ≤ cp by unfold HC4QV.END_FIRST_QGRAM HC4QV.Q; omega)] at hok
    cases hh : HC4QV.CHAIN_HASH? x cp with
    | none => rw [hh] at hok; simp at hok
    | some h =>
      rw [hh] at hok
      dsimp only at hok
      have hhe : h = HC4QV.CHAIN_HASH x cp := hc4_chain_hash_some x cp h hh
      by_cases hpeq : p = cp
      · subst hpeq
        apply hc4_chainLoop_keeps x _ _ _ _ _ _ hok
        rw [hH, hhe]
        unfold updB
        rw [if_pos rfl]
        apply or_self_bit
        rw [link_hash4_eq_pow]
        exact (Nat.pos_pow_of_pos _ (by norm_num)).ne'
      · exact ih _ _ _ _ _ hok (by rw [hhe]; unfold HC4QV.Q; norm_num) p hp3
          (by unfold HC4QV.Q; omega) (by unfold HC4QV.Q; omega)

lemma hc4_chainNoLoop_inserts (x : List Nat) :
    ∀ (fuel : Nat) (cn : Int) (H : Nat) (B B2 : Nat → Nat) (H2 : Nat),
      HC4QV.chainNoLoop x cn H B fuel = .ok (B2, H2) →
      ∀ p c, 1 ≤ c → c ≤ cn → 3 ≤ p → p ≤ (x.length : Int) - c - 4 →
        ((x.length : Int) - c - 4 - p) % 4 = 0 →
      B2 (HC4QV.CHAIN_HASH x (p + 4) % M32 &&& HC4QV.TABLE_MASK) &&&
        HC4QV.LINK_HASH (HC4QV.CHAIN_HASH x p % M32) ≠ 0 := by
  intro fuel
  induction fuel with
  | zero => intro cn H B B2 H2 hok; simp [HC4QV.chainNoLoop] at hok
  | succ fuel ih =>
    intro cn H B B2 H2 hok p c hc1 hccn hp3 hpm hmod
    unfold HC4QV.chainNoLoop at hok
    rw [if_pos (by omega : (1 : Int) ≤ cn)] at hok
    cases hh : HC4QV.CHAIN_HASH? x ((x.length : Int) - cn) with
    | none => rw [hh] at hok; simp at hok
    | some h =>
      rw [hh] at hok
      dsimp only at hok
      cases hcl : HC4QV.chainLoop x ((x.length : Int) - cn - HC4QV.Q) (h % M32) B (x.length + 1) with
      | oob => rw [hcl] at hok; simp at hok
      | out => rw [hcl] at hok; simp at hok
      | ok pr =>
        rw [hcl] at hok
        dsimp only at hok
        have hhe : h = HC4QV.CHAIN_HASH x ((x.length : Int) - cn) :=
          hc4_chain_hash_some x _ h hh
        by_cases hceq : c = cn
        · subst hceq
          apply hc4_chainNoLoop_keeps x _ _ _ _ _ _ hok
          have hins := hc4_chainLoop_inserts x (x.length + 1)
            ((x.length : Int) - c - HC4QV.Q) (h % M32) B pr.1 pr.2
            (by rw [← hcl]) ?_ p hp3 ?_ ?_
          · exact hins
          · rw [hhe]
            unfold HC4QV.Q
            norm_num
          · unfold HC4QV.Q
            omega
          · unfold HC4QV.Q
            omega
        · exact ih _ _ _ _ _ hok p c hc1 (by omega) hp3 hpm hmod

/-- Claim C3 (amended): for every pair of adjacent q-grams on a chain
(positions `p` and `p + Q` with `Q - 1 ≤ p` and `p + Q ≤ m - 1`), the
table word indexed by the hash of the *later* q-gram contains the
fingerprint bit of the hash of the *earlier* q-gram:
`B[h(g_{p+Q}) & TABLE_MASK] ∋ 1 << (h(g_p) & 0x1F)`.  Preprocessing
itself succeeds (such a pair forces `m ≥ 2Q`). -/
theorem hc4qverify_chain_invariant (x : List Nat) (p : Int)
    (h3 : 3 ≤ p) (hpq : p + 4 ≤ (x.length : Int) - 1) :
    (∃ BH, HC4QV.preprocessing x = CRes.ok BH) ∧
    preprocB4 x (HC4QV.CHAIN_HASH x (p + 4) % M32 &&& HC4QV.TABLE_MASK) &&&
      HC4QV.LINK_HASH (HC4QV.CHAIN_HASH x p % M32) ≠ 0 := by
  have hm : 8 ≤ (x.length : Int) := by omega
  obtain ⟨B1, H1, hcn⟩ := hc4_chainNoLoop_ok x (HC4QV.Q.toNat + 1) HC4QV.Q 0 (fun _ => 0)
    (by unfold HC4QV.Q; omega) (by unfold HC4QV.Q; omega)
  obtain ⟨B2, hf⟩ := hc4_fillLoop_ok x (min (x.length : Int) HC4QV.END_SECOND_QGRAM)
    (by unfold HC4QV.END_SECOND_QGRAM HC4QV.Q; omega) 8 HC4QV.END_FIRST_QGRAM B1
    (by unfold HC4QV.END_FIRST_QGRAM HC4QV.Q; omega)
    (by unfold HC4QV.END_SECOND_QGRAM HC4QV.END_FIRST_QGRAM HC4QV.Q; omega)
  have hpp : HC4QV.preprocessing x = CRes.ok (B2, H1) := by
    unfold HC4QV.preprocessing
    dsimp only
    rw [hcn]
    dsimp only
    rw [hf]
  refine ⟨⟨(B2, H1), hpp⟩, ?_⟩
  have hB4 : preprocB4 x = B2 := by
    unfold preprocB4
    rw [hpp]
  rw [hB4]
  have hbit := hc4_chainNoLoop_inserts x (HC4QV.Q.toNat + 1) HC4QV.Q 0 (fun _ => 0) B1 H1 hcn
    p (((x.length : Int) - p - 5) % 4 + 1) (by omega) (by unfold HC4QV.Q; omega) h3
    (by omega) (by omega)
  exact hc4_fillLoop_keeps x _ 8 _ B1 B2 hf _ _ hbit

/-- Witness for C3 at the pattern `[0,1,…,11]`, `p = 3`. -/
theorem hc4qverify_chain_invariant_witness :
    (3 : Int) ≤ 3 ∧ (3 : Int) + 4 ≤ (([0,1,2,3,4,5,6,7,8,9,10,11] : List Nat).length : Int) - 1 ∧
    ((∃ BH, HC4QV.preprocessing [0,1,2,3,4,5,6,7,8,9,10,11] = CRes.ok BH) ∧
      preprocB4 [0,1,2,3,4,5,6,7,8,9,10,11]
          (HC4QV.CHAIN_HASH [0,1,2,3,4,5,6,7,8,9,10,11] (3 + 4) % M32 &&& HC4QV.TABLE_MASK) &&&
        HC4QV.LINK_HASH (HC4QV.CHAIN_HASH [0,1,2,3,4,5,6,7,8,9,10,11] 3 % M32) ≠ 0) :=
  ⟨by decide, by decide,
    hc4qverify_chain_invariant [0,1,2,3,4,5,6,7,8,9,10,11] 3 (by decide) (by decide)⟩

lemma lhc4_preprocessing_ok (x : List Nat) (hm : 4 ≤ (x.length : Int)) :
    ∃ BH, LHC4.preprocessing x = CRes.ok BH := by
  have hstart : (if (x.length : Int) < LHC4.Q + LHC4.Q then (x.length : Int) - LHC4.END_FIRST_QGRAM
      else LHC4.Q) ≤ (x.length : Int) - 3 := by
    simp only [LHC4.Q, LHC4.END_FIRST_QGRAM]
    split <;> omega
  obtain ⟨B1, H1, hcn⟩ := hc4_chainNoLoop_ok x
    ((if (x.length : Int) < LHC4.Q + LHC4.Q then (x.length : Int) - LHC4.END_FIRST_QGRAM
      else LHC4.Q).toNat + 1)
    (if (x.length : Int) < LHC4.Q + LHC4.Q then (x.length : Int) - LHC4.END_FIRST_QGRAM
      else LHC4.Q) 0 (fun _ => 0) hstart (by omega)
  obtain ⟨B2, hf⟩ := hc4_fillLoop_ok x (min (x.length : Int) LHC4.END_SECOND_QGRAM)
    (by simp only [LHC4.END_SECOND_QGRAM, LHC4.Q]; omega) 8 LHC4.END_FIRST_QGRAM B1
    (by simp only [LHC4.END_FIRST_QGRAM, LHC4.Q]; omega)
    (by simp only [LHC4.END_SECOND_QGRAM, LHC4.END_FIRST_QGRAM, LHC4.Q]; omega)
  refine ⟨(B2, H1), ?_⟩
  unfold LHC4.preprocessing
  dsimp only
  rw [hcn]
  dsimp only
  rw [hf]

lemma kmp_bounds (x : List Nat) (j : Int) (h0 : 0 ≤ j) (hm : j ≤ (x.length : Int)) :
    -1 ≤ preKmpTable x j ∧ preKmpTable x j < j := by
  obtain ⟨_, hprop⟩ := pre_kmp_table x
  have := hprop j h0 hm
  unfold kmpEntryProp at this
  rcases this with h | ⟨ha, hb, _⟩
  · constructor
    · omega
    · omega
  · constructor
    · omega
    · omega

lemma lhc4_naiveLoop_spec (x y : List Nat) :
    ∀ (fuel : Nat) (pp nv : Int),
      0 ≤ pp → pp ≤ (x.length : Int) → 0 ≤ nv - pp →
      nv - pp ≤ (y.length : Int) - (x.length : Int) →
      ((x.length : Int) - pp).toNat < fuel →
      ∃ pp2 nv2, LHC4.naiveLoop x y pp nv fuel = .ok (pp2, nv2) ∧
        0 ≤ pp2 ∧ pp2 ≤ (x.length : Int) ∧ nv2 - pp2 = nv - pp ∧ pp ≤ pp2 := by
  intro fuel
  induction fuel with
  | zero => intro pp nv h1 h2 h3 h4 h5; omega
  | succ fuel ih
    =>
    intro pp nv h1 h2 h3 h4 h5
    unfold LHC4.naiveLoop
    by_cases hc : pp < (x.length : Int)
    · rw [if_pos hc]
      have hnv : rdQ y nv = some (rd y nv) := by
        unfold rdQ rd
        rw [if_pos ⟨by omega, by omega⟩, if_neg (by omega)]
      rw [hnv]
      dsimp only
      by_cases he : rd x pp = rd y nv
      · rw [if_pos he]
        obtain ⟨pp2, nv2, hr, ha, hb, hcc, hd⟩ := ih (pp + 1) (nv + 1)
          (by omega) (by omega) (by omega) (by omega) (by omega)
        exact ⟨pp2, nv2, hr, ha, hb, by omega, by omega⟩
      · rw [if_neg he]
        exact ⟨pp, nv, rfl, h1, by omega, rfl, le_refl _⟩
    · rw [if_neg hc]
      exact ⟨pp, nv, rfl, h1, by omega, rfl, le_refl _⟩

lemma lhc4_verifyLoop_spec (x y : List Nat) (hm4 : 4 ≤ (x.length : Int))
    (ws : Int) (hwsn : ws ≤ (y.length : Int) - (x.length : Int)) :
    ∀ (fuel : Nat) (pp nv : Int) (count : Nat),
      0 ≤ pp → pp ≤ (x.length : Int) → 0 ≤ nv - pp →
      (ws + 1 - (nv - pp)).toNat < fuel →
      ∃ pp2 nv2 count2,
        LHC4.verifyLoop x y (preKmpTable x) ws pp nv count fuel = .ok (pp2, nv2, count2) ∧
        0 ≤ pp2 ∧ pp2 ≤ (x.length : Int) ∧ ws < nv2 - pp2 := by
  intro fuel
  induction fuel with
  | zero => intro pp nv count h1 h2 h3 h5; omega
  | succ fuel ih =>
    intro pp nv count h1 h2 h3 h5
    unfold LHC4.verifyLoop
    by_cases hc : nv - ws ≤ pp
    · rw [if_pos hc]
      obtain ⟨pp2, nv2, hnr, ha, hb, hstart, hmono⟩ :=
        lhc4_naiveLoop_spec x y (x.length + 1) pp nv h1 h2 h3 (by omega) (by omega)
      rw [hnr]
      dsimp only
      have hkb := kmp_bounds x pp2 ha hb
      by_cases hneg : preKmpTable x pp2 < 0
      · rw [if_pos hneg, if_pos hneg]
        obtain ⟨pp3, nv3, count3, hr, h6, h7, h8⟩ := ih (preKmpTable x pp2 + 1) (nv2 + 1) _
          (by omega) (by omega) (by omega) (by omega)
        exact ⟨pp3, nv3, count3, hr, h6, h7, h8⟩
      · rw [if_neg hneg, if_neg hneg]
        obtain ⟨pp3, nv3, count3, hr, h6, h7, h8⟩ := ih (preKmpTable x pp2) nv2 _
          (by omega) (by omega) (by omega) (by omega)
        exact ⟨pp3, nv3, count3, hr, h6, h7, h8⟩
    · rw [if_neg hc]
      exact ⟨pp, nv, count, rfl, h1, h2, by omega⟩

lemma lhc4_walk_spec (y : List Nat) (B : Nat → Nat) (sb : Int) (hsb : 7 ≤ sb) :
    ∀ (fuel : Nat) (V H : Nat) (pos : Int), pos < (y.length : Int) → pos.toNat < fuel →
      (∃ p2, LHC4.walk y B V H pos sb fuel = .fail p2 ∧ sb - 4 ≤ p2 ∧ p2 ≤ pos - 4) ∨
      (∃ H2, LHC4.walk y B V H pos sb fuel = .complete H2) := by
  intro fuel
  induction fuel with
  | zero => intro V H pos h1 h2; omega
  | succ fuel ih =>
    intro V H pos h1 h2
    unfold LHC4.walk
    by_cases hc : sb ≤ pos
    · rw [if_pos hc]
      dsimp only
      rw [hc4_chain_hash_ok y (pos - LHC4.Q) (by unfold LHC4.Q; omega)
        (by unfold LHC4.Q; omega)]
      dsimp only
      by_cases hz : V &&& HC4QV.LINK_HASH (HC4QV.CHAIN_HASH y (pos - LHC4.Q) % M32) = 0
      · rw [if_pos hz]
        exact Or.inl ⟨pos - LHC4.Q, rfl, by unfold LHC4.Q; omega, by unfold LHC4.Q; omega⟩
      · rw [if_neg hz]
        rcases ih _ _ (pos - LHC4.Q) (by unfold LHC4.Q; omega) (by unfold LHC4.Q; omega) with
          ⟨p2, hr, hp1, hp2⟩ | ⟨H2, hr⟩
        · exact Or.inl ⟨p2, hr, hp1, by unfold LHC4.Q at hp2; omega⟩
        · exact Or.inr ⟨H2, hr⟩
    · rw [if_neg hc]
      exact Or.inr ⟨H, rfl⟩

lemma lhc4_mainLoop_ok (x y : List Nat) (B : Nat → Nat) (hm4 : 4 ≤ (x.length : Int)) :
    ∀ (fuel : Nat) (pos rightmost nv pp : Int) (count : Nat),
      (x.length : Int) - 1 ≤ pos → 0 ≤ pp → pp ≤ (x.length : Int) → 0 ≤ nv - pp →
      ((y.length : Int) - pos).toNat < fuel →
      ∃ c, LHC4.mainLoop x y B (preKmpTable x)
          ((x.length : Int) - LHC4.Q + 1) pos rightmost nv pp count fuel = .ok c := by
  intro fuel
  induction fuel with
  | zero => intro pos rightmost nv pp count h1 h2 h3 h4 h5; omega
  | succ fuel ih =>
    intro pos rightmost nv pp count h1 h2 h3 h4 h5
    unfold LHC4.mainLoop
    by_cases hc : pos < (y.length : Int)
    · rw [if_pos hc]
      rw [hc4_chain_hash_ok y pos (by omega) hc]
      dsimp only
      by_cases hV : B (HC4QV.CHAIN_HASH y pos % M32 &&& LHC4.TABLE_MASK) ≠ 0
      · rw [if_pos hV]
        rcases lhc4_walk_spec y (B)
            (max (pos - (x.length : Int) + LHC4.Q) rightmost + LHC4.Q)
            (by unfold LHC4.Q; omega) (pos.toNat + 1) _ _ pos hc (by omega) with
          ⟨p2, hw, hw1, hw2⟩ | ⟨H2, hw⟩
        · rw [hw]
          exact ih (p2 + ((x.length : Int) - LHC4.Q + 1)) pos nv pp count
            (by unfold LHC4.Q at hw1 ⊢; omega) h2 h3 h4
            (by unfold LHC4.Q at hw1 ⊢; omega)
        · rw [hw]
          dsimp only
          have hws0 : 0 ≤ pos - (x.length : Int) + LHC4.Q - LHC4.Q + 1 := by
            unfold LHC4.Q; omega
          obtain ⟨pp2, nv2, count2, hv, hv1, hv2, hv3⟩ :=
            lhc4_verifyLoop_spec x y hm4 (pos - (x.length : Int) + LHC4.Q - LHC4.Q + 1)
              (by unfold LHC4.Q; omega) (y.length + x.length + 2)
              (if pos - (x.length : Int) + LHC4.Q - LHC4.Q + 1 > nv then 0 else pp)
              (if pos - (x.length : Int) + LHC4.Q - LHC4.Q + 1 > nv
                then pos - (x.length : Int) + LHC4.Q - LHC4.Q + 1 else nv)
              count
              (by split <;> omega) (by split <;> omega) (by split <;> omega)
              (by split <;> omega)
          rw [hv]
          dsimp only
          exact ih (nv2 + (x.length : Int) - 1 - pp2) pos nv2 pp2 count2
            (by omega) hv1 hv2 (by omega) (by unfold LHC4.Q at hv3; omega)
      · rw [if_neg hV]
        exact ih (pos + ((x.length : Int) - LHC4.Q + 1)) rightmost nv pp count
          (by unfold LHC4.Q; omega) h2 h3 h4 (by unfold LHC4.Q; omega)
    · rw [if_neg hc]
      exact ⟨count, rfl⟩

lemma lhc4_search_ok (x y : List Nat) : ∃ c : Int, LHC4.search x y = CRes.ok c := by
  by_cases hm : (x.length : Int) < LHC4.Q
  · refine ⟨-1, ?_⟩
    unfold LHC4.search
    rw [if_pos hm]
  · have hm4 : 4 ≤ (x.length : Int) := by unfold LHC4.Q at hm; omega
    obtain ⟨BH, hpre⟩ := lhc4_preprocessing_ok x hm4
    have hkmp : LHC4.pre_kmp x = some (preKmpTable x) := (pre_kmp_table x).1
    obtain ⟨c, hmain⟩ := lhc4_mainLoop_ok x y BH.1 hm4 (y.length + 1)
      ((x.length : Int) - 1) 0 0 0 0 (by omega) (by omega) (by omega) (by omega)
      (by omega)
    refine ⟨Int.ofNat c, ?_⟩
    unfold LHC4.search
    rw [if_neg hm]
    dsimp only
    rw [hpre]
    dsimp only
    rw [hkmp]
    dsimp only
    rw [hmain]

/-- Claim C7: the lhc4 scanner (in particular its KMP verification
loop) reads the text only at in-range indices: the checked embedding,
in which every read of `y` or failure-table index is guarded, never
returns the out-of-bounds marker, for any input. -/
theorem lhc4_verification_reads_in_range (x y : List Nat) :
    LHC4.search x y ≠ CRes.oob := by
  obtain ⟨c, hc⟩ := lhc4_search_ok x y
  rw [hc]
  simp

lemma rd_eq_getD (l : List Nat) (t : Nat) : rd l t = l.getD t 0 := by
  unfold rd
  rw [if_neg (by omega)]
  simp

lemma occAt_iff_rd (x y : List Nat) (i : Nat) :
    occAt x y i ↔
      (i + x.length ≤ y.length ∧
        ∀ t : Nat, t < x.length → rd y (i + t) = rd x t) := by
  unfold occAt
  constructor
  · rintro ⟨hlen, heq⟩
    refine ⟨hlen, ?_⟩
    intro t ht
    have hcast : ((i : Int) + (t : Int)) = ((i + t : Nat) : Int) := by push_cast; ring
    rw [hcast, rd_eq_getD, rd_eq_getD]
    have h1 : ((y.drop i).take x.length).getD t 0 = x.getD t 0 := by rw [heq]
    rw [List.getD_eq_getElem?_getD, List.getElem?_take_of_lt ht, List.getElem?_drop,
      List.getD_eq_getElem?_getD] at h1
    rw [List.getD_eq_getElem?_getD, List.getD_eq_getElem?_getD]
    exact h1
  · rintro ⟨hlen, heq⟩
    refine ⟨hlen, ?_⟩
    apply List.ext_getElem
    · rw [List.length_take, List.length_drop]
      omega
    · intro t h1 h2
      have h3 := heq t h2
      have hcast : ((i : Int) + (t : Int)) = ((i + t : Nat) : Int) := by push_cast; ring
      rw [hcast, rd_eq_getD, rd_eq_getD] at h3
      rw [List.getD_eq_getElem?_getD, List.getD_eq_getElem?_getD] at h3
      have h4 : (i + t) < y.length := by omega
      rw [List.getElem?_eq_getElem h4, List.getElem?_eq_getElem h2] at h3
      simp at h3
      rw [List.getElem_take, List.getElem_drop]
      exact h3

lemma rd_transfer (x y : List Nat) (i : Nat) (hocc : occAt x y i) (t : Int)
    (h0 : 0 ≤ t) (hm : t < (x.length : Int)) : rd y ((i : Int) + t) = rd x t := by
  obtain ⟨hlen, heq⟩ := (occAt_iff_rd x y i).mp hocc
  have ht : t = ((t.toNat : Nat) : Int) := by omega
  rw [ht]
  exact heq t.toNat (by omega)

lemma hash_transfer (x y : List Nat) (i : Nat) (hocc : occAt x y i) (p : Int)
    (h2 : 2 ≤ p) (hm : p ≤ (x.length : Int) - 1) (s : Nat) :
    HC3.HASH y ((i : Int) + p) s = HC3.HASH x p s := by
  unfold HC3.HASH
  rw [rd_transfer x y i hocc p (by omega) (by omega)]
  rw [show (i : Int) + p - 1 = (i : Int) + (p - 1) by ring,
    rd_transfer x y i hocc (p - 1) (by omega) (by omega)]
  rw [show (i : Int) + p - 2 = (i : Int) + (p - 2) by ring,
    rd_transfer x y i hocc (p - 2) (by omega) (by omega)]

lemma rollSeq_transfer (x y : List Nat) (i : Nat) (hocc : occAt x y i) :
    ∀ (j : Nat) (q : Int), 2 ≤ q - 3 * (j : Int) → q ≤ (x.length : Int) - 1 →
      HC3.rollSeq y ((i : Int) + q) j = HC3.rollSeq x q j := by
  intro j
  induction j with
  | zero =>
    intro q h2 hm
    unfold HC3.rollSeq HC3.ANCHOR_HASH
    rw [hash_transfer x y i hocc q (by omega) hm]
  | succ j ih =>
    intro q h2 hm
    unfold HC3.rollSeq
    rw [ih q (by omega) hm]
    unfold HC3.CHAIN_HASH
    rw [show (i : Int) + q - HC3.Q * ((j : Int) + 1) =
      (i : Int) + (q - HC3.Q * ((j : Int) + 1)) by ring]
    rw [hash_transfer x y i hocc (q - HC3.Q * ((j : Int) + 1))
      (by unfold HC3.Q; push_cast at h2; omega) (by unfold HC3.Q; omega)]

lemma rollSeq_succ_eq (l : List Nat) (p : Int) (j : Nat) :
    HC3.rollSeq l p (j + 1) =
      (HC3.rollSeq l p j * 16 + HC3.CHAIN_HASH l (p - 3 * ((j : Int) + 1))) % 4294967296 := by
  show ((HC3.rollSeq l p j <<< HC3.S2) + HC3.CHAIN_HASH l (p - HC3.Q * ((j : Int) + 1))) % M32 = _
  rw [Nat.shiftLeft_eq]
  norm_num [HC3.S2, HC3.Q, M32]

lemma hc3_rollSeq_mod2048 (l : List Nat) (p : Int) (j : Nat) :
    HC3.rollSeq l p (j + 3) % 2048 =
      ((((HC3.CHAIN_HASH l (p - 3 * ((j : Int) + 1)) % 8) * 16
          + HC3.CHAIN_HASH l (p - 3 * ((j : Int) + 2))) % 128) * 16
        + HC3.CHAIN_HASH l (p - 3 * ((j : Int) + 3))) % 2048 := by
  have e1 := rollSeq_succ_eq l p j
  have e2 : HC3.rollSeq l p (j + 2) =
      (HC3.rollSeq l p (j + 1) * 16 + HC3.CHAIN_HASH l (p - 3 * ((j : Int) + 2))) % 4294967296 := by
    have e := rollSeq_succ_eq l p (j + 1)
    push_cast at e
    rw [show (j : Int) + 1 + 1 = (j : Int) + 2 by ring] at e
    exact e
  have e3 : HC3.rollSeq l p (j + 3) =
      (HC3.rollSeq l p (j + 2) * 16 + HC3.CHAIN_HASH l (p - 3 * ((j : Int) + 3))) % 4294967296 := by
    have e := rollSeq_succ_eq l p (j + 2)
    push_cast at e
    rw [show (j : Int) + 2 + 1 = (j : Int) + 3 by ring] at e
    exact e
  rw [e3, e2, e1]
  omega

lemma hc3_rollSeq_mod32 (l : List Nat) (p : Int) (j : Nat) :
    HC3.rollSeq l p (j + 2) % 32 =
      ((HC3.CHAIN_HASH l (p - 3 * ((j : Int) + 1)) % 2) * 16
        + HC3.CHAIN_HASH l (p - 3 * ((j : Int) + 2))) % 32 := by
  have e1 := rollSeq_succ_eq l p j
  have e2 : HC3.rollSeq l p (j + 2) =
      (HC3.rollSeq l p (j + 1) * 16 + HC3.CHAIN_HASH l (p - 3 * ((j : Int) + 2))) % 4294967296 := by
    have e := rollSeq_succ_eq l p (j + 1)
    push_cast at e
    rw [show (j : Int) + 1 + 1 = (j : Int) + 2 by ring] at e
    exact e
  rw [e2, e1]
  omega

lemma hc3_chainLoop_keeps (x : List Nat) (stop : Int) :
    ∀ (fuel : Nat) (cp : Int) (H : Nat) (B : Nat → Nat) (idx w : Nat),
      B idx &&& w ≠ 0 → (HC3.chainLoop x stop cp H B fuel).1 idx &&& w ≠ 0 := by
  intro fuel
  induction fuel with
  | zero => intro cp H B idx w h; exact h
  | succ fuel ih =>
    intro cp H B idx w h
    unfold HC3.chainLoop
    split
    · apply ih
      unfold updB
      split
      · rename_i hidx
        rw [hidx] at h
        exact and_or_bit_keep _ _ _ h
      · exact h
    · exact h

lemma hc3_anchorLoop_keeps (x : List Nat) (m : Int) :
    ∀ (fuel : Nat) (a : Int) (B : Nat → Nat) (idx w : Nat),
      B idx &&& w ≠ 0 → HC3.anchorLoop x m a B fuel idx &&& w ≠ 0 := by
  intro fuel
  induction fuel with
  | zero => intro a B idx w h; exact h
  | succ fuel ih =>
    intro a B idx w h
    unfold HC3.anchorLoop
    split
    · exact ih _ _ _ _ (hc3_chainLoop_keeps x _ 6 _ _ _ _ _ h)
    · exact h

lemma hc3_fillLoop_keeps (x : List Nat) (stop : Int) :
    ∀ (fuel : Nat) (a : Int) (B : Nat → Nat) (idx w : Nat),
      B idx &&& w ≠ 0 → HC3.fillLoop x stop a B fuel idx &&& w ≠ 0 := by
  intro fuel
  induction fuel with
  | zero => intro a B idx w h; exact h
  | succ fuel ih =>
    intro a B idx w h
    unfold HC3.fillLoop
    split
    · apply ih
      split
      · rename_i hz
        unfold updB
        split
        · rename_i hidx
          rw [hidx, hz] at h
          simp at h
        · exact h
      · exact h
    · exact h

lemma hc3_chainLoop_inserts (x : List Nat) (stop : Int) :
    ∀ (fuel : Nat) (j0 : Nat) (q : Int) (B : Nat → Nat) (jt : Nat),
      j0 + 1 ≤ jt → jt - j0 ≤ fuel → stop ≤ q - 3 * (jt : Int) →
      (HC3.chainLoop x stop (q - 3 * ((j0 : Int) + 1)) (HC3.rollSeq x q j0) B fuel).1
          (HC3.rollSeq x q (jt - 1) &&& HC3.TABLE_MASK) &&&
        HC3.LINK_HASH (HC3.rollSeq x q jt) ≠ 0 := by
  intro fuel
  induction fuel with
  | zero => intro j0 q B jt h1 h2 h3; omega
  | succ fuel ih =>
    intro j0 q B jt h1 h2 h3
    unfold HC3.chainLoop
    rw [if_pos (by omega : stop ≤ q - 3 * ((j0 : Int) + 1))]
    have hroll : ((HC3.rollSeq x q j0 <<< HC3.S2) +
        HC3.CHAIN_HASH x (q - 3 * ((j0 : Int) + 1))) % M32 = HC3.rollSeq x q (j0 + 1) := by
      show _ = ((HC3.rollSeq x q j0 <<< HC3.S2) +
        HC3.CHAIN_HASH x (q - HC3.Q * ((j0 : Int) + 1))) % M32
      norm_num [HC3.Q]
    by_cases hjt : jt = j0 + 1
    · subst hjt
      apply hc3_chainLoop_keeps
      unfold updB
      rw [if_pos (by simp)]
      rw [hroll]
      apply or_self_bit
      rw [link_hash_eq_pow]
      exact (Nat.pos_pow_of_pos _ (by norm_num)).ne'
    · have hrec := ih (j0 + 1) q
        (updB B (HC3.rollSeq x q j0 &&& HC3.TABLE_MASK)
          (B (HC3.rollSeq x q j0 &&& HC3.TABLE_MASK) |||
            HC3.LINK_HASH (HC3.rollSeq x q (j0 + 1))))
        jt (by omega) (by omega) h3
      dsimp only
      rw [hroll]
      rw [show q - 3 * ((j0 : Int) + 1) - HC3.Q = q - 3 * (((j0 + 1 : Nat) : Int) + 1) by
        unfold HC3.Q; push_cast; ring]
      exact hrec

lemma hc3_anchorLoop_inserts (x : List Nat) (m : Int) :
    ∀ (fuel : Nat) (a : Int) (B : Nat → Nat) (q : Int) (jt : Nat),
      a ≤ q → q ≤ m - 1 → 5 ≤ q → 1 ≤ jt → 2 ≤ q - 3 * (jt : Int) →
      q - 15 ≤ q - 3 * (jt : Int) → (m - a).toNat < fuel →
      HC3.anchorLoop x m a B fuel (HC3.rollSeq x q (jt - 1) &&& HC3.TABLE_MASK) &&&
        HC3.LINK_HASH (HC3.rollSeq x q jt) ≠ 0 := by
  intro fuel
  induction fuel with
  | zero => intro a B q jt h1 h2 h3 h4 h5 h6 h7; omega
  | succ fuel ih =>
    intro a B q jt h1 h2 h3 h4 h5 h6 h7
    unfold HC3.anchorLoop
    rw [if_pos (by omega : a < m)]
    by_cases haq : a = q
    · subst haq
      apply hc3_anchorLoop_keeps
      have hcl := hc3_chainLoop_inserts x
        (max HC3.END_FIRST_QGRAM (a - HC3.Q - HC3.CHAIN_LENGTH)) 6 0 a B jt h4
        (by omega)
        (by unfold HC3.END_FIRST_QGRAM HC3.Q HC3.CHAIN_LENGTH
            rw [max_le_iff]
            constructor <;> omega)
      rw [show a - 3 * (((0 : Nat) : Int) + 1) = a - HC3.Q by unfold HC3.Q; norm_num] at hcl
      exact hcl
    · exact ih (a + 1) _ q jt (by omega) h2 h3 h4 h5 h6 (by omega)

lemma hc3_B_link (x : List Nat) (q : Int) (jt : Nat)
    (h5 : 5 ≤ q) (hqm : q ≤ (x.length : Int) - 1) (hjt : 1 ≤ jt)
    (hleft : 2 ≤ q - 3 * (jt : Int)) (hlen : q - 15 ≤ q - 3 * (jt : Int)) :
    (HC3.preprocessing x).1 (HC3.rollSeq x q (jt - 1) &&& HC3.TABLE_MASK) &&&
      HC3.LINK_HASH (HC3.rollSeq x q jt) ≠ 0 := by
  have hB : (HC3.preprocessing x).1 =
      HC3.fillLoop x (min (x.length : Int) 5) 2
        (HC3.anchorLoop x (x.length : Int) 5 (fun _ => 0) (x.length + 1)) 6 := rfl
  rw [hB]
  apply hc3_fillLoop_keeps
  exact hc3_anchorLoop_inserts x (x.length : Int) (x.length + 1) 5 (fun _ => 0) q jt
    h5 hqm h5 hjt hleft hlen (by omega)

lemma ne_zero_of_and_ne_zero (a w : Nat) (h : a &&& w ≠ 0) : a ≠ 0 := by
  intro h0
  rw [h0] at h
  simp at h

lemma hc3_B_probe_nonzero (x : List Nat) (q : Int)
    (h2 : 2 ≤ q) (hqm : q ≤ (x.length : Int) - 1) :
    (HC3.preprocessing x).1 (HC3.rollSeq x q 0 &&& HC3.TABLE_MASK) ≠ 0 := by
  by_cases h5 : 5 ≤ q
  · have := hc3_B_link x q 1 h5 hqm (by omega) (by omega) (by omega)
    exact ne_zero_of_and_ne_zero _ _ this
  · have hB : (HC3.preprocessing x).1 =
        HC3.fillLoop x (min (x.length : Int) 5) 2
          (HC3.anchorLoop x (x.length : Int) 5 (fun _ => 0) (x.length + 1)) 6 := rfl
    rw [hB]
    have := hc3_fill_sets x (min (x.length : Int) 5) 6 2 q
      (HC3.anchorLoop x (x.length : Int) 5 (fun _ => 0) (x.length + 1))
      h2 (by omega) (by omega)
    exact this

lemma and_table_mask_eq_mod (a : Nat) : a &&& HC3.TABLE_MASK = a % 2048 := by
  show a &&& 2047 = a % 2048
  have h : (2047 : Nat) = 2 ^ 11 - 1 := by norm_num
  rw [h, Nat.and_pow_two_sub_one_eq_mod]

lemma link_hash_congr (a b : Nat) (h : a % 32 = b % 32) :
    HC3.LINK_HASH a = HC3.LINK_HASH b := by
  rw [link_hash_eq_pow, link_hash_eq_pow, h]

lemma hc3_text_link_present (x y : List Nat) (i : Nat) (hocc : occAt x y i)
    (P : Int) (hPm : P ≤ (i : Int) + (x.length : Int) - 1) (k : Nat)
    (hk : (i : Int) + 2 ≤ P - 3 * ((k : Int) + 1)) :
    (HC3.preprocessing x).1 (HC3.rollSeq y P k &&& HC3.TABLE_MASK) &&&
      HC3.LINK_HASH (HC3.rollSeq y P (k + 1)) ≠ 0 := by
  set q : Int := P - (i : Int) with hqdef
  have hPq : P = (i : Int) + q := by omega
  have hq2 : 2 ≤ q - 3 * ((k : Int) + 1) := by omega
  have hqm : q ≤ (x.length : Int) - 1 := by omega
  have hch : ∀ t : Int, 0 ≤ t → 2 ≤ q - 3 * t →
      HC3.CHAIN_HASH y (P - 3 * t) = HC3.CHAIN_HASH x (q - 3 * t) := by
    intro t ht0 ht
    unfold HC3.CHAIN_HASH
    rw [show P - 3 * t = (i : Int) + (q - 3 * t) by omega]
    exact hash_transfer x y i hocc (q - 3 * t) ht (by omega) _
  by_cases hk5 : k + 1 ≤ 5
  · have ht1 : HC3.rollSeq y P k = HC3.rollSeq x q k := by
      rw [hPq]
      exact rollSeq_transfer x y i hocc k q (by omega) hqm
    have ht2 : HC3.rollSeq y P (k + 1) = HC3.rollSeq x q (k + 1) := by
      rw [hPq]
      exact rollSeq_transfer x y i hocc (k + 1) q (by push_cast; omega) hqm
    rw [ht1, ht2]
    have hres := hc3_B_link x q (k + 1) (by omega) hqm (by omega)
      (by push_cast; omega) (by push_cast; omega)
    simpa using hres
  · obtain ⟨k', rfl⟩ : ∃ k', k = k' + 5 := ⟨k - 5, by omega⟩
    set q2 : Int := q - 3 * ((k' : Int) + 1) with hq2def
    have hcast : ((k' + 5 : Nat) : Int) = (k' : Int) + 5 := by push_cast; ring
    rw [hcast] at hq2 hk
    have hq25 : 5 ≤ q2 := by omega
    have hlink := hc3_B_link x q2 5 hq25 (by omega) (by omega) (by omega) (by omega)
    have hidx : HC3.rollSeq y P (k' + 5) % 2048 = HC3.rollSeq x q2 4 % 2048 := by
      have e1 := hc3_rollSeq_mod2048 y P (k' + 2)
      have e2 := hc3_rollSeq_mod2048 x q2 1
      rw [show k' + 2 + 3 = k' + 5 from rfl] at e1
      rw [show (1 : Nat) + 3 = 4 from rfl] at e2
      rw [e1, e2]
      rw [show P - 3 * (((k' + 2 : Nat) : Int) + 1) = P - 3 * ((k' : Int) + 3) by push_cast; ring,
        show P - 3 * (((k' + 2 : Nat) : Int) + 2) = P - 3 * ((k' : Int) + 4) by push_cast; ring,
        show P - 3 * (((k' + 2 : Nat) : Int) + 3) = P - 3 * ((k' : Int) + 5) by push_cast; ring]
      rw [hch ((k' : Int) + 3) (by omega) (by omega),
        hch ((k' : Int) + 4) (by omega) (by omega),
        hch ((k' : Int) + 5) (by omega) (by omega)]
      rw [show q2 - 3 * (((1 : Nat) : Int) + 1) = q - 3 * ((k' : Int) + 3) by rw [hq2def]; push_cast; ring,
        show q2 - 3 * (((1 : Nat) : Int) + 2) = q - 3 * ((k' : Int) + 4) by rw [hq2def]; push_cast; ring,
        show q2 - 3 * (((1 : Nat) : Int) + 3) = q - 3 * ((k' : Int) + 5) by rw [hq2def]; push_cast; ring]
    have hfp : HC3.rollSeq y P (k' + 5 + 1) % 32 = HC3.rollSeq x q2 5 % 32 := by
      have e1 := hc3_rollSeq_mod32 y P (k' + 4)
      have e2 := hc3_rollSeq_mod32 x q2 3
      rw [show k' + 4 + 2 = k' + 5 + 1 from rfl] at e1
      rw [show (3 : Nat) + 2 = 5 from rfl] at e2
      rw [e1, e2]
      rw [show P - 3 * (((k' + 4 : Nat) : Int) + 1) = P - 3 * ((k' : Int) + 5) by push_cast; ring,
        show P - 3 * (((k' + 4 : Nat) : Int) + 2) = P - 3 * ((k' : Int) + 6) by push_cast; ring]
      rw [hch ((k' : Int) + 5) (by omega) (by omega),
        hch ((k' : Int) + 6) (by omega) (by omega)]
      rw [show q2 - 3 * (((3 : Nat) : Int) + 1) = q - 3 * ((k' : Int) + 5) by rw [hq2def]; push_cast; ring,
        show q2 - 3 * (((3 : Nat) : Int) + 2) = q - 3 * ((k' : Int) + 6) by rw [hq2def]; push_cast; ring]
    rw [and_table_mask_eq_mod, hidx, ← and_table_mask_eq_mod]
    rw [link_hash_congr _ _ hfp]
    simpa using hlink

lemma hc3_hmLoop_spec (x : List Nat) :
    ∀ (fuel : Nat) (p : Int) (j : Nat),
      2 ≤ p - 3 * (j : Int) → (p - 3 * (j : Int)).toNat < 3 * fuel →
      ∃ jf : Nat, HC3.hmLoop x (p - 3 * ((j : Int) + 1)) (HC3.rollSeq x p j) fuel =
          HC3.rollSeq x p jf ∧ j ≤ jf ∧ 2 ≤ p - 3 * (jf : Int) ∧ p - 3 * (jf : Int) < 5 := by
  intro fuel
  induction fuel with
  | zero => intro p j h1 h2; omega
  | succ fuel ih =>
    intro p j h1 h2
    unfold HC3.hmLoop
    by_cases hc : HC3.END_FIRST_QGRAM ≤ p - 3 * ((j : Int) + 1)
    · rw [if_pos hc]
      have hc2 : (2 : Int) ≤ p - 3 * ((j : Int) + 1) := hc
      have hroll : ((HC3.rollSeq x p j <<< HC3.S2) +
          HC3.CHAIN_HASH x (p - 3 * ((j : Int) + 1))) % M32 = HC3.rollSeq x p (j + 1) := by
        show _ = ((HC3.rollSeq x p j <<< HC3.S2) +
          HC3.CHAIN_HASH x (p - HC3.Q * ((j : Int) + 1))) % M32
        norm_num [HC3.Q]
      obtain ⟨jf, hr, hj1, hj2, hj3⟩ := ih p (j + 1) (by push_cast; omega)
        (by push_cast at hc2 ⊢; omega)
      refine ⟨jf, ?_, by omega, hj2, hj3⟩
      rw [show p - 3 * ((j : Int) + 1) - HC3.Q = p - 3 * (((j + 1 : Nat) : Int) + 1) by
        unfold HC3.Q; push_cast; ring]
      rw [hroll]
      exact hr
    · rw [if_neg hc]
      refine ⟨j, rfl, le_refl _, h1, ?_⟩
      unfold HC3.END_FIRST_QGRAM HC3.Q at hc
      omega

lemma hc3_Hm_spec (x : List Nat) (hm : 3 ≤ (x.length : Int)) :
    ∃ jf : Nat, (HC3.preprocessing x).2 = HC3.rollSeq x ((x.length : Int) - 1) jf ∧
      2 ≤ (x.length : Int) - 1 - 3 * (jf : Int) ∧ (x.length : Int) - 1 - 3 * (jf : Int) < 5 := by
  have hsh : (HC3.preprocessing x).2 =
      HC3.hmLoop x ((x.length : Int) - 1 - HC3.Q)
        (HC3.ANCHOR_HASH x ((x.length : Int) - 1) % M32) (x.length + 1) := rfl
  obtain ⟨jf, hr, hj1, hj2, hj3⟩ := hc3_hmLoop_spec x (x.length + 1)
    ((x.length : Int) - 1) 0 (by omega) (by omega)
  refine ⟨jf, ?_, by omega, by omega⟩
  rw [hsh]
  rw [show (x.length : Int) - 1 - HC3.Q = (x.length : Int) - 1 - 3 * (((0 : Nat) : Int) + 1) by
    unfold HC3.Q; norm_num]
  exact hr

lemma hc3_walk_spec (x y : List Nat) (P end2 : Int) (hend3 : 3 ≤ end2) :
    ∀ (fuel : Nat) (k : Nat),
      end2 ≤ P - 3 * (k : Int) + 3 →
      (P - 3 * (k : Int)).toNat < fuel →
      (∃ p2 : Int,
          HC3.walk y (HC3.preprocessing x).1
            ((HC3.preprocessing x).1 (HC3.rollSeq y P k &&& HC3.TABLE_MASK))
            (HC3.rollSeq y P k) (P - 3 * (k : Int)) end2 fuel = .fail p2 ∧
          end2 - 3 ≤ p2 ∧ p2 ≤ P - 3 ∧
          ∀ i' : Nat, occAt x y i' → P ≤ (i' : Int) + (x.length : Int) - 1 →
            p2 < (i' : Int) + 2) ∨
      (∃ k2 : Nat,
          HC3.walk y (HC3.preprocessing x).1
            ((HC3.preprocessing x).1 (HC3.rollSeq y P k &&& HC3.TABLE_MASK))
            (HC3.rollSeq y P k) (P - 3 * (k : Int)) end2 fuel =
              .complete (HC3.rollSeq y P k2) ∧
          P - 3 * (k2 : Int) < end2 ∧ end2 ≤ P - 3 * (k2 : Int) + 3) := by
  intro fuel
  induction fuel with
  | zero => intro k hinv hfuel; omega
  | succ fuel ih =>
    intro k hinv hfuel
    unfold HC3.walk
    by_cases hle : end2 ≤ P - 3 * (k : Int)
    · rw [if_pos hle]
      have hH2 : ((HC3.rollSeq y P k <<< HC3.S2) +
          HC3.CHAIN_HASH y (P - 3 * (k : Int) - HC3.Q)) % M32 =
          HC3.rollSeq y P (k + 1) := by
        show _ = ((HC3.rollSeq y P k <<< HC3.S2) +
          HC3.CHAIN_HASH y (P - HC3.Q * ((k : Int) + 1))) % M32
        unfold HC3.Q
        ring_nf
      simp only [hH2]
      by_cases hbit : (HC3.preprocessing x).1 (HC3.rollSeq y P k &&& HC3.TABLE_MASK) &&&
          HC3.LINK_HASH (HC3.rollSeq y P (k + 1)) = 0
      · rw [if_pos hbit]
        refine Or.inl ⟨P - 3 * (k : Int) - HC3.Q, rfl, by unfold HC3.Q; omega,
          by unfold HC3.Q; omega, ?_⟩
        intro i' hocc hPm
        by_contra hcon
        push_neg at hcon
        exact hc3_text_link_present x y i' hocc P hPm k
          (by unfold HC3.Q at hcon; omega) hbit
      · rw [if_neg hbit]
        have hpos2 : P - 3 * (k : Int) - HC3.Q = P - 3 * ((k + 1 : Nat) : Int) := by
          unfold HC3.Q; push_cast; ring
        rw [hpos2]
        exact ih (k + 1) (by push_cast at hle ⊢; omega)
          (by push_cast at hle hfuel ⊢; omega)
    · rw [if_neg hle]
      exact Or.inr ⟨k, rfl, by omega, hinv⟩

lemma memcmpB_iff (x y : List Nat) (s : Int) (h0 : 0 ≤ s)
    (hn : s + (x.length : Int) ≤ (y.length : Int)) :
    HC3.memcmpB y s x = true ↔ occAt x y s.toNat := by
  unfold HC3.memcmpB
  rw [List.all_eq_true, occAt_iff_rd]
  constructor
  · intro h
    refine ⟨by omega, ?_⟩
    intro t ht
    have h2 := h t (List.mem_range.mpr ht)
    rw [beq_iff_eq] at h2
    rw [show ((s.toNat : Nat) : Int) + (t : Int) = s + (t : Int) by omega, h2, rd_eq_getD]
  · rintro ⟨_, h⟩ t htm
    rw [List.mem_range] at htm
    have h2 := h t htm
    rw [beq_iff_eq, show s + (t : Int) = ((s.toNat : Nat) : Int) + (t : Int) by omega, h2,
      rd_eq_getD]

lemma mem_occList (x y : List Nat) (i : Nat) : i ∈ occList x y ↔ occAt x y i := by
  unfold occList
  rw [List.mem_filter, List.mem_range]
  constructor
  · rintro ⟨_, h⟩
    exact of_decide_eq_true h
  · intro h
    exact ⟨by have := h.1; omega, decide_eq_true h⟩

lemma occList_nodup (x y : List Nat) : (occList x y).Nodup :=
  (List.nodup_range _).filter _

lemma countFrom_zero (x y : List Nat) (pos : Int) (h : (y.length : Int) ≤ pos) :
    countFrom x y pos = 0 := by
  unfold countFrom
  rw [List.countP_eq_zero]
  intro i hi
  have hocc := (mem_occList x y i).mp hi
  have := hocc.1
  simp only [decide_eq_true_eq]
  omega

lemma countFrom_congr (x y : List Nat) (pos pos' : Int) (hle : pos ≤ pos')
    (hgap : ∀ i' : Nat, occAt x y i' → pos ≤ (i' : Int) + (x.length : Int) - 1 →
      pos' ≤ (i' : Int) + (x.length : Int) - 1) :
    countFrom x y pos = countFrom x y pos' := by
  unfold countFrom
  apply List.countP_congr
  intro i hi
  have hocc := (mem_occList x y i).mp hi
  by_cases hc : pos' ≤ (i : Int) + (x.length : Int) - 1
  · rw [decide_eq_true (by omega : pos ≤ (i : Int) + (x.length : Int) - 1),
      decide_eq_true hc]
  · rw [decide_eq_false hc, decide_eq_false]
    intro hp
    exact hc (hgap i hocc hp)

lemma countP_or_single (q : Nat → Bool) (i0 : Nat) (hq : q i0 = false) :
    ∀ l : List Nat, l.Nodup →
      l.countP (fun i => q i || i == i0) = l.countP q + (if i0 ∈ l then 1 else 0) := by
  intro l
  induction l with
  | nil => simp
  | cons a t ih =>
    intro hnd
    rw [List.nodup_cons] at hnd
    rw [List.countP_cons, List.countP_cons]
    by_cases ha : a = i0
    · subst ha
      have ht : t.countP (fun i => q i || i == a) = t.countP q := by
        apply List.countP_congr
        intro b hb
        have hba : b ≠ a := fun h => hnd.1 (h ▸ hb)
        simp [hba]
      rw [ht, if_pos (List.mem_cons_self a t)]
      simp [hq]
    · rw [ih hnd.2]
      have hba : (a == i0) = false := by simp [ha]
      rw [hba, Bool.or_false]
      have hmem : i0 ∈ a :: t ↔ i0 ∈ t := by
        constructor
        · intro h
          rcases List.mem_cons.mp h with h1 | h1
          · exact absurd h1.symm ha
          · exact h1
        · exact fun h => List.mem_cons_of_mem a h
      by_cases hm : i0 ∈ t
      · rw [if_pos hm, if_pos (hmem.mpr hm)]
        ring
      · rw [if_neg hm, if_neg (fun h => hm (hmem.mp h))]
        ring

lemma countFrom_step (x y : List Nat) (pos : Int) (i0 : Nat)
    (hi0 : (i0 : Int) = pos - (x.length : Int) + 1) :
    countFrom x y pos = countFrom x y (pos + 1) + (if occAt x y i0 then 1 else 0) := by
  unfold countFrom
  have hsplit : (occList x y).countP
      (fun (i : Nat) => decide (pos ≤ (i : Int) + (x.length : Int) - 1)) =
      (occList x y).countP
      (fun (i : Nat) => decide (pos + 1 ≤ (i : Int) + (x.length : Int) - 1) || i == i0) := by
    apply List.countP_congr
    intro i _
    by_cases hc : pos + 1 ≤ (i : Int) + (x.length : Int) - 1
    · rw [decide_eq_true (by omega : pos ≤ (i : Int) + (x.length : Int) - 1),
        decide_eq_true hc, Bool.true_or]
    · by_cases hie : i = i0
      · subst hie
        rw [decide_eq_true (by omega : pos ≤ (i : Int) + (x.length : Int) - 1)]
        simp
      · have hii : ¬ pos ≤ (i : Int) + (x.length : Int) - 1 := by
          intro hp
          apply hie
          have h1 : (i : Int) = (i0 : Int) := by omega
          exact_mod_cast h1
        rw [decide_eq_false hii, decide_eq_false hc]
        simp [hie]
  rw [hsplit, countP_or_single _ i0 (decide_eq_false (by omega)) _ (occList_nodup x y)]
  congr 1
  by_cases hocc : occAt x y i0
  · rw [if_pos ((mem_occList x y i0).mpr hocc), if_pos hocc]
  · rw [if_neg (fun h => hocc ((mem_occList x y i0).mp h)), if_neg hocc]

lemma hc3_mainLoop_eq (x y : List Nat) (hm : 3 ≤ (x.length : Int)) :
    ∀ (fuel : Nat) (pos : Int) (count : Nat),
      (x.length : Int) - 1 ≤ pos →
      ((y.length : Int) - pos).toNat < fuel →
      HC3.mainLoop x y (HC3.preprocessing x).1 (HC3.preprocessing x).2
        ((x.length : Int) - HC3.Q + 1) pos count fuel =
        some (count + countFrom x y pos) := by
  obtain ⟨jf, hHm, hjf1, hjf2⟩ := hc3_Hm_spec x hm
  intro fuel
  induction fuel with
  | zero => intro pos count hpos hfuel; omega
  | succ fuel ih =>
    intro pos count hpos hfuel
    unfold HC3.mainLoop
    by_cases hlt : pos < (y.length : Int)
    · rw [if_pos hlt]
      by_cases hV : (HC3.preprocessing x).1
          (HC3.ANCHOR_HASH y pos % M32 &&& HC3.TABLE_MASK) ≠ 0
      · rw [if_pos hV]
        dsimp only
        rcases hc3_walk_spec x y pos (pos - (x.length : Int) + (HC3.Q + HC3.Q))
            (by unfold HC3.Q; omega) (pos.toNat + 1) 0
            (by unfold HC3.Q; push_cast; omega) (by push_cast; omega) with
          ⟨p2, hw, hp1, hp2, hall⟩ | ⟨k2, hw, hk2a, hk2b⟩
        · simp only [Nat.cast_zero, mul_zero, sub_zero,
            show HC3.rollSeq y pos 0 = HC3.ANCHOR_HASH y pos % M32 from rfl] at hw
          rw [hw]
          rw [countFrom_congr x y pos (p2 + ((x.length : Int) - HC3.Q + 1))
            (by unfold HC3.Q at hp1 ⊢; omega)
            (by
              intro i' hocc hP
              have := hall i' hocc hP
              unfold HC3.Q
              omega)]
          exact ih (p2 + ((x.length : Int) - HC3.Q + 1)) count
            (by unfold HC3.Q at hp1 ⊢; omega)
            (by unfold HC3.Q at hp1 ⊢; omega)
        · simp only [Nat.cast_zero, mul_zero, sub_zero,
            show HC3.rollSeq y pos 0 = HC3.ANCHOR_HASH y pos % M32 from rfl] at hw
          rw [hw]
          dsimp only
          have hQ6 : pos - (x.length : Int) + (HC3.Q + HC3.Q) - HC3.Q -
              HC3.END_FIRST_QGRAM = pos - (x.length : Int) + 1 := by
            simp only [HC3.Q, HC3.END_FIRST_QGRAM]; ring
          rw [hQ6]
          have hi0 : (((pos - (x.length : Int) + 1).toNat : Nat) : Int) =
              pos - (x.length : Int) + 1 := by omega
          set i0 : Nat := (pos - (x.length : Int) + 1).toNat with hi0def
          have hnext : pos - (x.length : Int) + (HC3.Q + HC3.Q) - HC3.Q +
              ((x.length : Int) - HC3.Q + 1) = pos + 1 := by
            simp only [HC3.Q]; ring
          rw [hnext]
          have hstep := countFrom_step x y pos i0 hi0
          by_cases hocc : occAt x y i0
          · have hk2jf : k2 = jf := by
              unfold HC3.Q at hk2a hk2b
              omega
            have hH2Hm : HC3.rollSeq y pos k2 = (HC3.preprocessing x).2 := by
              rw [hHm, ← hk2jf]
              rw [show pos = ((i0 : Nat) : Int) + ((x.length : Int) - 1) by omega]
              exact rollSeq_transfer x y i0 hocc k2 ((x.length : Int) - 1)
                (by unfold HC3.Q at hk2a hk2b; omega) (by omega)
            have hmem : HC3.memcmpB y (pos - (x.length : Int) + 1) x = true := by
              rw [memcmpB_iff x y _ (by omega) (by omega)]
              exact hocc
            rw [if_pos (by rw [hH2Hm, hmem]; simp)]
            rw [hstep, if_pos hocc]
            rw [ih (pos + 1) (count + 1) (by omega) (by omega)]
            exact congrArg some (by omega)
          · have hmem : ¬ HC3.memcmpB y (pos - (x.length : Int) + 1) x = true := by
              rw [memcmpB_iff x y _ (by omega) (by omega)]
              exact hocc
            rw [if_neg (by
              intro hcond
              rw [Bool.and_eq_true] at hcond
              exact hmem hcond.2)]
            rw [hstep, if_neg hocc]
            rw [ih (pos + 1) count (by omega) (by omega)]
            exact congrArg some (by omega)
      · rw [if_neg hV]
        push_neg at hV
        rw [countFrom_congr x y pos (pos + ((x.length : Int) - HC3.Q + 1))
          (by unfold HC3.Q; omega)
          (by
            intro i' hocc hP
            unfold HC3.Q
            by_contra hcon
            push_neg at hcon
            have hq2 : 2 ≤ pos - (i' : Int) := by omega
            have hqm : pos - (i' : Int) ≤ (x.length : Int) - 1 := by omega
            have hnz := hc3_B_probe_nonzero x (pos - (i' : Int)) hq2 hqm
            apply hnz
            have htr := rollSeq_transfer x y i' hocc 0 (pos - (i' : Int))
              (by push_cast; omega) hqm
            rw [show ((i' : Nat) : Int) + (pos - (i' : Int)) = pos by ring] at htr
            rw [← htr]
            exact hV)]
        exact ih (pos + ((x.length : Int) - HC3.Q + 1)) count
          (by unfold HC3.Q; omega) (by unfold HC3.Q; omega)
    · rw [if_neg hlt]
      rw [countFrom_zero x y pos (by omega)]
      norm_num

lemma countFrom_all (x y : List Nat) (pos : Int) (h : pos ≤ (x.length : Int) - 1) :
    countFrom x y pos = occCount x y := by
  unfold countFrom occCount
  rw [List.countP_eq_length]
  intro i _
  exact decide_eq_true (by omega)

lemma hc3_search_eq (x y : List Nat) (hm : 3 ≤ (x.length : Int)) :
    HC3.search x y = some (Int.ofNat (occCount x y)) := by
  unfold HC3.search
  rw [if_neg (by unfold HC3.Q; omega)]
  dsimp only
  rw [hc3_mainLoop_eq x y hm (y.length + 1) ((x.length : Int) - 1) 0 (by omega) (by omega)]
  rw [countFrom_all x y ((x.length : Int) - 1) (by omega)]
  simp [Option.map]

/-- Claim C2 (hc3.c): the filter has no false negatives — for every
pattern `x` with `m ≥ Q` and every text `y`, the hc3 scanner counts
every true occurrence of `x` in `y` (and nothing else): `search`
returns exactly the number of positions `i` with `y[i..i+m) = x`.  In
particular every backward chain walk over a true occurrence succeeds
(each probed (table word, fingerprint) pair is present in `B`), the
scanner reaches the verification step aligned at the occurrence, and
the byte comparison succeeds there. -/
theorem hc3_no_false_negatives (x y : List Nat) (hm : 3 ≤ (x.length : Int)) :
    HC3.search x y = some (Int.ofNat (occCount x y)) :=
  hc3_search_eq x y hm

theorem hc3_no_false_negatives_witness :
    3 ≤ (([1, 2, 3] : List Nat).length : Int) ∧
      HC3.search [1, 2, 3] [1, 2, 3, 1, 2, 3] =
        some (Int.ofNat (occCount [1, 2, 3] [1, 2, 3, 1, 2, 3])) :=
  ⟨by norm_num, hc3_no_false_negatives [1, 2, 3] [1, 2, 3, 1, 2, 3] (by norm_num)⟩

/-- Claim C4: the main scanning loops terminate within `n` iterations —
with fuel `n + 1` (one unit per iteration of the C `while (pos < n)`
loop) the hc3 scanner never exhausts its fuel and the lhc4 scanner
(including its KMP verification iterations, whose fuel is likewise
bounded by the loop-iteration count) always returns a value, for every
input: each iteration advances the cursor by at least 1 net. -/
theorem main_loops_terminate (x x2 y y2 : List Nat) :
    (HC3.search x y).isSome ∧ ∃ c : Int, LHC4.search x2 y2 = CRes.ok c := by
  constructor
  · by_cases hm : 3 ≤ (x.length : Int)
    · rw [hc3_search_eq x y hm]
      rfl
    · unfold HC3.search
      rw [if_pos (by unfold HC3.Q; omega)]
      rfl
  · exact lhc4_search_ok x2 y2
